import Mathlib

/-!
# Verification of the wagyu key-management core

Shallow embedding of the BIP32 extended-private-key subsystem
(src/bitcoin/src/extended_private_key.rs) and the Monero mnemonic codec
(src/monero/src/mnemonic.rs), together with proofs and refutations of the
frozen specification claims.

Strings are embedded as lists of byte values (`List Nat`, each element < 256);
byte buffers likewise.  Machine integers are `Nat` with explicit `% 2 ^ w`
where the source relies on wrapping.  Fallible operations return `Except`;
operations whose Rust originals can panic return `Option (Except ..)`, with
`none` marking the panic.  External collaborators that are not part of this
repository's sources (HMAC-SHA512, the secp256k1 point serializer, hash160
and the double-SHA256 checksum) are passed in explicitly as functions, as
sanctioned by the specification's collaborator-interface section.
-/

namespace Wagyu

/-! ## Little-endian and big-endian byte conversions -/

/-- Value of a little-endian byte list. -/
def fromLe : List Nat → Nat
  | [] => 0
  | b :: r => b + 256 * fromLe r

@[simp] theorem fromLe_nil : fromLe [] = 0 := rfl

@[simp] theorem fromLe_cons (b : Nat) (r : List Nat) :
    fromLe (b :: r) = b + 256 * fromLe r := rfl

/-- Fixed-width little-endian byte list of a natural number. -/
def toLe : Nat → Nat → List Nat
  | 0, _ => []
  | k + 1, n => n % 256 :: toLe k (n / 256)

/-- Value of a big-endian byte list. -/
def fromBe (bs : List Nat) : Nat := fromLe bs.reverse

/-- Fixed-width big-endian byte list of a natural number. -/
def toBe (k n : Nat) : List Nat := (toLe k n).reverse

/-! ## Base58 codec

Modelled from the spec: the base58-check envelope of §4.3 relies on the
external base58 crate (`to_base58` / `from_base58`), which is not part of
this repository's sources.  The alphabet below is the standard Bitcoin
base58 alphabet, given as byte values. -/

def alphabet58 : List Nat :=
  [49, 50, 51, 52, 53, 54, 55, 56, 57,
   65, 66, 67, 68, 69, 70, 71, 72, 74, 75, 76, 77, 78, 80, 81, 82, 83, 84,
   85, 86, 87, 88, 89, 90,
   97, 98, 99, 100, 101, 102, 103, 104, 105, 106, 107, 109, 110, 111, 112,
   113, 114, 115, 116, 117, 118, 119, 120, 121, 122]

/-- Base-58 digits of a number, most significant first.  Fuel-driven so the
definition is structurally recursive and kernel-evaluable. -/
def digits58 : Nat → Nat → List Nat
  | 0, _ => []
  | fuel + 1, n => if n = 0 then [] else digits58 fuel (n / 58) ++ [n % 58]

/-- Big-endian base-256 digits of a number, fuel-driven. -/
def bytesOfNat : Nat → Nat → List Nat
  | 0, _ => []
  | fuel + 1, n => if n = 0 then [] else bytesOfNat fuel (n / 256) ++ [n % 256]

@[simp] theorem digits58_zero (fuel : Nat) : digits58 fuel 0 = [] := by
  cases fuel <;> simp [digits58]

/-- Value of a most-significant-first base-58 digit list. -/
def from58 (ds : List Nat) : Nat := ds.foldl (fun a d => a * 58 + d) 0

/-- Index of a byte in the base58 alphabet, scanning from position `k`. -/
def idx58Aux (c : Nat) : List Nat → Nat → Option Nat
  | [], _ => none
  | a :: r, k => if a = c then some k else idx58Aux c r (k + 1)

def idx58 (c : Nat) : Option Nat := idx58Aux c alphabet58 0

/-- Encoding to base58: leading `0x00` bytes map to leading `'1'` digits,
the rest is the base-58 expansion of the big-endian value. -/
def base58Encode (bs : List Nat) : List Nat :=
  let zeros := (bs.takeWhile (· = 0)).length
  List.replicate zeros 49 ++
    (digits58 (2 * bs.length) (fromBe bs)).map (fun d => alphabet58.getD d 0)

/-- Mapping every character of a base58 string back to its digit. -/
def digitsOfChars : List Nat → Option (List Nat)
  | [] => some []
  | c :: r => match idx58 c, digitsOfChars r with
    | some d, some ds => some (d :: ds)
    | _, _ => none

/-- Decoding from base58; `none` models the crate's `FromBase58Error`. -/
def base58Decode (s : List Nat) : Option (List Nat) :=
  let ones := (s.takeWhile (· = 49)).length
  let rest := s.drop ones
  match digitsOfChars rest with
  | none => none
  | some ds => some (List.replicate ones 0 ++ bytesOfNat rest.length (from58 ds))

/-! ## BIP32 extended private key (src/bitcoin/src/extended_private_key.rs)

The embedding is parameterized over the cryptographic collaborators
(HMAC-SHA512, compressed-point serialization, hash160, double-SHA256
checksum): they live in external crates or in the `wagu_model` crate, not in
the sources under verification, and every claim below holds for (or is
refuted at) an arbitrary instantiation. -/

/-- Group order n of secp256k1 (0xFFFFFFFFFFFFFFFFFFFFFFFFFFFFFFFEBAAEDCE6AF48A03BBFD25E8CD0364141). -/
def nSecp : Nat :=
  115792089237316195423570985008687907852837564279074904382605163141518161494337

inductive Format where
  | P2PKH
  | P2SH_P2WPKH
deriving DecidableEq

/-- Modelled from the spec: the version-byte registry mapping (network,
format) to a 4-byte prefix lives in the collaborator network/format modules,
which are not under src/.  Mainnet values: xprv 0x0488ADE4 (§6), yprv
0x049D7878 for the P2SH-P2WPKH variant. -/
def versionBytes : Format → List Nat
  | .P2PKH => [4, 136, 173, 228]
  | .P2SH_P2WPKH => [4, 157, 120, 120]

/-- Modelled from the spec: inverse direction of the registry; unknown
prefixes are a registry miss. -/
def formatFromVersion (v : List Nat) : Option Format :=
  if v = [4, 136, 173, 228] then some .P2PKH
  else if v = [4, 157, 120, 120] then some .P2SH_P2WPKH
  else none

inductive ChildIndex where
  | Normal (i : Nat)
  | Hardened (i : Nat)
deriving DecidableEq

/-- Modelled from the spec: canonical 32-bit wire form of a child index
(`i` for Normal, `i + 2^31` for Hardened). -/
def ChildIndex.toU32 : ChildIndex → Nat
  | .Normal i => i
  | .Hardened i => i + 2 ^ 31

/-- Modelled from the spec: the variant is restored by testing the high bit. -/
def ChildIndex.ofU32 (u : Nat) : ChildIndex :=
  if u < 2 ^ 31 then .Normal u else .Hardened (u - 2 ^ 31)

/-- In-range indices (both variants carry a value below 2^31). -/
def ChildIndex.wf : ChildIndex → Prop
  | .Normal i => i < 2 ^ 31
  | .Hardened i => i < 2 ^ 31

inductive XKeyError where
  | maximumChildDepthReached (depth : Nat)
  | invalidByteLength (n : Nat)
  | invalidChecksum (expected found : List Nat)
  | invalidVersionBytes (v : List Nat)
  | invalidScalar
  | invalidBase58
deriving DecidableEq

/-- External cryptographic collaborators consumed by the extended-key code. -/
structure Crypto where
  hmacSha512 : List Nat → List Nat → List Nat
  pointSer : Nat → List Nat
  hash160 : List Nat → List Nat
  checksum : List Nat → List Nat

structure XPrv where
  format : Format
  depth : Nat
  parent_fingerprint : List Nat
  child_index : ChildIndex
  chain_code : List Nat
  secret_key : Nat
deriving DecidableEq

/-- SecretKey::from_slice: 32 bytes, value in [1, n). -/
def secretFromBytes (bs : List Nat) : Except XKeyError Nat :=
  let v := fromBe bs
  if bs.length = 32 ∧ 1 ≤ v ∧ v < nSecp then .ok v else .error .invalidScalar

/-- ASCII bytes of the HMAC key "Bitcoin seed". -/
def bitcoinSeedKey : List Nat :=
  [66, 105, 116, 99, 111, 105, 110, 32, 115, 101, 101, 100]

/-- BitcoinExtendedPrivateKey::new_master.  The `match` plays the role of
the source's `?` operator. -/
def new_master (C : Crypto) (seed : List Nat) (format : Format) :
    Except XKeyError XPrv :=
  let h := C.hmacSha512 bitcoinSeedKey seed
  match secretFromBytes (h.take 32) with
  | .error e => .error e
  | .ok k =>
    .ok { format := format, depth := 0, parent_fingerprint := List.replicate 4 0,
          child_index := .Normal 0, chain_code := (h.drop 32).take 32,
          secret_key := k }

/-- One iteration of the derivation loop in BitcoinExtendedPrivateKey::derive.
The 8-bit depth increment wraps modulo 256, matching release-mode Rust
semantics for `depth + 1` on u8. -/
def deriveStep (C : Crypto) (k : XPrv) (index : ChildIndex) :
    Except XKeyError XPrv :=
  let public_key := C.pointSer k.secret_key
  let data := (match index with
    | .Normal _ => public_key
    | .Hardened _ => 0 :: toBe 32 k.secret_key) ++ toBe 4 index.toU32
  let h := C.hmacSha512 k.chain_code data
  match secretFromBytes (h.take 32) with
  | .error e => .error e
  | .ok tweak =>
    let skNew := (tweak + k.secret_key) % nSecp
    if skNew = 0 then .error .invalidScalar
    else .ok { format := k.format, depth := (k.depth + 1) % 256,
               parent_fingerprint := (C.hash160 public_key).take 4,
               child_index := index,
               chain_code := (h.drop 32).take 32,
               secret_key := skNew }

/-- The per-index loop body of derive, iterated along the path. -/
def foldSteps (C : Crypto) : XPrv → List ChildIndex → Except XKeyError XPrv
  | k, [] => .ok k
  | k, i :: rest =>
    match deriveStep C k i with
    | .error e => .error e
    | .ok k2 => foldSteps C k2 rest

/-- BitcoinExtendedPrivateKey::derive: the depth bound is checked once,
before iterating over the path. -/
def derive (C : Crypto) (k : XPrv) (path : List ChildIndex) :
    Except XKeyError XPrv :=
  if k.depth = 255 then .error (.maximumChildDepthReached k.depth)
  else foldSteps C k path

/-- First 78 serialized bytes (version through scalar), as written by the
Display implementation. -/
def serializeBody (K : XPrv) : List Nat :=
  versionBytes K.format ++ [K.depth] ++ K.parent_fingerprint ++
    toBe 4 K.child_index.toU32 ++ K.chain_code ++ [0] ++ toBe 32 K.secret_key

/-- Display for BitcoinExtendedPrivateKey (base58 of 78-byte body plus
4-byte checksum).  The modelled registry is total on the modelled formats,
so the fmt::Error branch of the source cannot fire here. -/
def to_string (C : Crypto) (K : XPrv) : List Nat :=
  let body := serializeBody K
  base58Encode (body ++ (C.checksum body).take 4)

/-- Field extraction from a decoded 82-byte payload, as in FromStr. -/
def parse82 (C : Crypto) (data : List Nat) : Except XKeyError XPrv :=
  if data.length = 82 then
    match formatFromVersion (data.take 4) with
    | none => .error (.invalidVersionBytes (data.take 4))
    | some format =>
      let depth := data.getD 4 0
      let parent_fingerprint := (data.drop 5).take 4
      let child_index := ChildIndex.ofU32 (fromBe ((data.drop 9).take 4))
      let chain_code := (data.drop 13).take 32
      match secretFromBytes ((data.drop 46).take 32) with
      | .error e => .error e
      | .ok secret_key =>
        let expected := (data.drop 78).take 4
        let found := (C.checksum (data.take 78)).take 4
        if expected ≠ found then
          .error (.invalidChecksum (base58Encode expected) (base58Encode found))
        else
          .ok { format := format, depth := depth,
                parent_fingerprint := parent_fingerprint,
                child_index := child_index, chain_code := chain_code,
                secret_key := secret_key }
  else .error (.invalidByteLength data.length)

/-- FromStr for BitcoinExtendedPrivateKey. -/
def from_str (C : Crypto) (s : List Nat) : Except XKeyError XPrv :=
  match base58Decode s with
  | none => .error .invalidBase58
  | some data => parse82 C data

/-- Well-formedness of an extended-private-key value: field ranges as
produced by new_master and derive. -/
def XPrv.wf (K : XPrv) : Prop :=
  K.depth < 256 ∧
  K.parent_fingerprint.length = 4 ∧ (∀ b ∈ K.parent_fingerprint, b < 256) ∧
  K.child_index.wf ∧
  K.chain_code.length = 32 ∧ (∀ b ∈ K.chain_code, b < 256) ∧
  1 ≤ K.secret_key ∧ K.secret_key < nSecp

/-- Well-formedness of the checksum collaborator: 32 output bytes. -/
def checksumWf (f : List Nat → List Nat) : Prop :=
  ∀ data, (f data).length = 32 ∧ ∀ b ∈ f data, b < 256

@[simp] theorem except_isOk_ok {ε α : Type} (v : α) :
    (Except.ok v : Except ε α).isOk = true := rfl

@[simp] theorem except_isOk_error {ε α : Type} (e : ε) :
    (Except.error e : Except ε α).isOk = false := rfl

instance {ε α : Type} [DecidableEq ε] [DecidableEq α] :
    DecidableEq (Except ε α) := fun a b =>
  match a, b with
  | .error e1, .error e2 =>
    if h : e1 = e2 then .isTrue (by rw [h])
    else .isFalse (by intro hc; cases hc; exact h rfl)
  | .ok v1, .ok v2 =>
    if h : v1 = v2 then .isTrue (by rw [h])
    else .isFalse (by intro hc; cases hc; exact h rfl)
  | .error _, .ok _ => .isFalse (by intro hc; cases hc)
  | .ok _, .error _ => .isFalse (by intro hc; cases hc)

/-! ## Concrete collaborator instances for witnesses and counterexamples -/

/-- Executable stand-in for the external crypto collaborators: HMAC output
whose first 32 bytes encode the scalar 1 and whose trailing 32 bytes are
zero, a constant 33-byte point, a constant hash160 and a constant checksum. -/
def cryptoDemo : Crypto where
  hmacSha512 := fun _ _ => List.replicate 31 0 ++ [1] ++ List.replicate 32 0
  pointSer := fun _ => List.replicate 33 2
  hash160 := fun _ => List.replicate 20 3
  checksum := fun _ => List.replicate 32 9

def keyDemo : XPrv :=
  { format := .P2PKH, depth := 0, parent_fingerprint := List.replicate 4 0,
    child_index := .Normal 0, chain_code := List.replicate 32 0,
    secret_key := 1 }

def keyDemo254 : XPrv := { keyDemo with depth := 254 }

def keyDemo255 : XPrv := { keyDemo with depth := 255 }

/-! ## Claim theorems for the BIP32 subsystem -/

/-- Invariant stated by the data model (§3): depth = 0 iff the parent
fingerprint is zero and the child index is Normal(0). -/
def depthInvariant (k : XPrv) : Prop :=
  k.depth = 0 ↔
    (k.parent_fingerprint = List.replicate 4 0 ∧ k.child_index = .Normal 0)

/-- Key violating the depth invariant: depth 0 but nonzero fingerprint. -/
def keyBad : XPrv :=
  { format := .P2PKH, depth := 0, parent_fingerprint := [1, 0, 0, 0],
    child_index := .Normal 0, chain_code := List.replicate 32 0,
    secret_key := 1 }

/-- An 82-byte payload with valid version bytes and matching checksum whose
depth byte is 0 while the parent fingerprint is nonzero. -/
def payloadBad : List Nat :=
  [4, 136, 173, 228] ++ [0] ++ [1, 0, 0, 0] ++ [0, 0, 0, 0] ++
    List.replicate 32 0 ++ [0] ++ (List.replicate 31 0 ++ [1]) ++ [9, 9, 9, 9]

/-- Payload identical in shape to a valid serialization but with byte 45
set to 7 instead of the wire-mandated 0x00. -/
def payload45 : List Nat :=
  [4, 136, 173, 228] ++ [0] ++ List.replicate 4 0 ++ List.replicate 4 0 ++
    List.replicate 32 0 ++ [7] ++ (List.replicate 31 0 ++ [1]) ++ [9, 9, 9, 9]

/-! ## Monero mnemonic codec (src/monero/src/mnemonic.rs)

Strings are byte lists; the phrase separator is the space byte 32.  The
wordlist collaborator (a `MoneroWordlist` instance, out of scope per §6) is
a structure of words plus a trim length; `to_trimmed` takes the first
`plen` bytes, which for the ASCII wordlists coincides with the first `plen`
characters.  Operations that can panic in Rust return `Option`, with `none`
marking the panic. -/

/-- Order ℓ of the Ed25519 base-point subgroup. -/
def lEd : Nat := 2 ^ 252 + 27742317777372353535851937790883648493

/-- One bit step of reflected CRC-32/IEEE (polynomial 0xEDB88320). -/
def crcRound (c : Nat) : Nat :=
  if c % 2 = 1 then Nat.xor (c / 2) 3988292384 else c / 2

/-- CRC-32/IEEE over a byte list, as computed by the crc crate's
crc32::Digest with crc32::IEEE. -/
def crc32 (bs : List Nat) : Nat :=
  Nat.xor (bs.foldl (fun c b => crcRound^[8] (Nat.xor c b)) 4294967295)
    4294967295

/-- Modelled from the spec: the wordlist service (§6) with indexed lookup,
prefix trimming and a per-wordlist trim length.  These live in the
collaborator wordlist modules, which are not under src/. -/
structure Wordlist where
  words : List (List Nat)
  plen : Nat

/-- Wordlist::to_trimmed: the first `plen` characters of a word. -/
def Wordlist.toTrimmed (W : Wordlist) (w : List Nat) : List Nat := w.take W.plen

/-- Scan for the first word whose trimmed form matches, counting from `k`. -/
def lookupTrimmedAux (P : Nat) (t : List Nat) :
    List (List Nat) → Nat → Option Nat
  | [], _ => none
  | w :: ws, k => if w.take P = t then some k else lookupTrimmedAux P t ws (k + 1)

/-- Wordlist::get_index_trimmed: canonical index of a trimmed prefix. -/
def Wordlist.getIndexTrimmed (W : Wordlist) (t : List Nat) : Option Nat :=
  lookupTrimmedAux W.plen t W.words 0

inductive MnError where
  | missingWord
  | missingChecksumWord
  | invalidDecoding
  | invalidChecksumWord (expected found : List Nat)
  | wordNotFound
deriving DecidableEq

/-- str::split(" ") on byte lists. -/
def splitSpAux : List Nat → List Nat → List (List Nat)
  | [], acc => [acc.reverse]
  | b :: rest, acc =>
    if b = 32 then acc.reverse :: splitSpAux rest []
    else splitSpAux rest (b :: acc)

def splitSp (bs : List Nat) : List (List Nat) := splitSpAux bs []

/-- Vec::join(" ") on byte lists. -/
def joinSp : List (List Nat) → List Nat
  | [] => []
  | [w] => w
  | w :: rest => w ++ 32 :: joinSp rest

/-- MoneroMnemonic::checksum_word.  The result is `none` exactly when the
word list is empty, where the Rust source divides by zero
(`digest.sum32() % phrase.len() as u32`) and panics. -/
def checksum_word (W : Wordlist) (phrase : List (List Nat)) :
    Option (List Nat) :=
  if h : phrase.length = 0 then none
  else
    some (phrase.get
      ⟨crc32 ((phrase.map W.toTrimmed).flatten) % phrase.length,
        Nat.mod_lt _ (Nat.pos_of_ne_zero h)⟩)

/-- Per-chunk index combination in from_phrase (L = 1626). -/
def chunkVal (w1 w2 w3 : Nat) : Nat :=
  w1 + 1626 * ((1626 - w1 + w2) % 1626) +
    1626 * 1626 * ((1626 - w2 + w3) % 1626)

/-- Decoding of the 3-word chunks of from_phrase.  The buffer collects
`u32::to_le_bytes(x as u32)`, i.e. the chunk value truncated mod 2^32.
The outer `none` marks the chunk-indexing panic on a partial chunk, which
the caller's length check makes unreachable. -/
def decodeChunks (W : Wordlist) :
    List (List Nat) → Option (Except MnError (List Nat))
  | [] => some (.ok [])
  | c1 :: c2 :: c3 :: rest =>
    match W.getIndexTrimmed (W.toTrimmed c1), W.getIndexTrimmed (W.toTrimmed c2),
        W.getIndexTrimmed (W.toTrimmed c3) with
    | some w1, some w2, some w3 =>
      if chunkVal w1 w2 w3 % 1626 ≠ w1 then some (.error .invalidDecoding)
      else
        match decodeChunks W rest with
        | none => none
        | some (.error e) => some (.error e)
        | some (.ok buf) =>
          some (.ok (toLe 4 (chunkVal w1 w2 w3 % 2 ^ 32) ++ buf))
    | _, _, _ => some (.error .wordNotFound)
  | _ => none

/-- Body of from_phrase after the checksum word has been popped: chunk
decoding, checksum verification against the popped word, and the final
copy into the 32-byte seed (whose length-mismatch panic is `none`). -/
def from_phrase_tail (W : Wordlist) (data : List (List Nat)) (cW : List Nat) :
    Option (Except MnError (List Nat)) :=
  match decodeChunks W data with
  | none => none
  | some (.error e) => some (.error e)
  | some (.ok buf) =>
    match checksum_word W data with
    | none => none
    | some expected =>
      if W.toTrimmed expected ≠ W.toTrimmed cW then
        some (.error (.invalidChecksumWord (W.toTrimmed expected)
          (W.toTrimmed cW)))
      else if buf.length = 32 then some (.ok buf)
      else none

/-- MoneroMnemonic::from_phrase.  `none` marks a panic: either the modulo
by zero inside checksum_word (word count 1), or the copy_from_slice length
mismatch when the decoded buffer is not 32 bytes (word count ≡ 1 mod 3 but
different from 25). -/
def from_phrase (W : Wordlist) (s : List Nat) :
    Option (Except MnError (List Nat)) :=
  if (splitSp s).length % 3 = 2 then some (.error .missingWord)
  else if (splitSp s).length % 3 = 0 then some (.error .missingChecksumWord)
  else
    match (splitSp s).getLast? with
    | none => some (.error .missingWord)
    | some cW => from_phrase_tail W (splitSp s).dropLast cW

/-- Chunks of four bytes; the seed is a fixed 32-byte array, so the split
in to_phrase is always exact. -/
def chunks4 : List Nat → List (List Nat)
  | a :: b :: c :: d :: rest => [a, b, c, d] :: chunks4 rest
  | _ => []

/-- Word emission for the 32-bit seed chunks in to_phrase; Wordlist::get
out-of-range failures surface as errors, as with the source's `?`. -/
def encodeWords (W : Wordlist) : List Nat → Except MnError (List (List Nat))
  | [] => .ok []
  | x :: rest =>
    match W.words.get? (x % 1626),
        W.words.get? ((x / 1626 + x % 1626) % 1626),
        W.words.get? ((x / 1626 / 1626 + (x / 1626 + x % 1626) % 1626) % 1626) with
    | some a, some b, some c =>
      match encodeWords W rest with
      | .error e => .error e
      | .ok ws => .ok (a :: b :: c :: ws)
    | _, _, _ => .error .wordNotFound

/-- MoneroMnemonic::to_phrase: the seed is reduced as an Ed25519 scalar
mod ℓ (Scalar::from_bytes_mod_order) before splitting into eight 32-bit
little-endian integers. -/
def to_phrase (W : Wordlist) (seed : List Nat) :
    Option (Except MnError (List Nat)) :=
  match encodeWords W ((chunks4 (toLe 32 (fromLe seed % lEd))).map fromLe) with
  | .error e => some (.error e)
  | .ok ph =>
    match checksum_word W ph with
    | none => none
    | some cw => some (.ok (joinSp (ph ++ [cw])))

/-- Consistency of trimmed lookup: the canonical index of a word's trimmed
prefix is the word's own index (this is the spec's prefix-uniqueness
precondition on the wordlist data). -/
def lookupConsistent (W : Wordlist) : Prop :=
  ∀ i (h : i < W.words.length),
    W.getIndexTrimmed (W.toTrimmed (W.words.get ⟨i, h⟩)) = some i

/-- Concrete executable wordlist: 1626 distinct three-byte ASCII words. -/
def wordDemo (i : Nat) : List Nat := [119, 65 + i / 41, 65 + i % 41]

def wordsDemoList : List (List Nat) := (List.range 1626).map wordDemo

def wordlistDemo : Wordlist := { words := wordsDemoList, plen := 3 }

/-- First component of the result of to_phrase on success (used to state
round trips without an existential). -/
def phraseOf (W : Wordlist) (s : List Nat) : List Nat :=
  match to_phrase W s with
  | some (.ok p) => p
  | _ => []

/-! ## Inversion lemmas and the phrase-side round trip -/

/-- Chunk values of a word list, mirroring the lookups of decodeChunks
(0 stands in for chunks with failing lookups, which decodeChunks rejects). -/
def chunkVals (W : Wordlist) : List (List Nat) → List Nat
  | c1 :: c2 :: c3 :: rest =>
    (match W.getIndexTrimmed (W.toTrimmed c1), W.getIndexTrimmed (W.toTrimmed c2),
        W.getIndexTrimmed (W.toTrimmed c3) with
     | some w1, some w2, some w3 => chunkVal w1 w2 w3
     | _, _, _ => 0) :: chunkVals W rest
  | _ => []

/-- Seed used to refute C4 as stated: eight little-endian chunks, seven
zeros and 269675352 = 1626^2 * 102, giving value 269675352 * 2^224 ≥ ℓ. -/
def seedC4 : List Nat := toLe 32 (269675352 * 2 ^ 224)

/-- Phrase whose 24 data words encode seedC4 verbatim (no mod-ℓ reduction),
closed with its checksum word. -/
def phraseC4 : List Nat :=
  match encodeWords wordlistDemo ((chunks4 seedC4).map fromLe) with
  | .ok ws => joinSp (ws ++ [(checksum_word wordlistDemo ws).getD []])
  | .error _ => []

@[simp] theorem toLe_length (k n : Nat) : (toLe k n).length = k := by
  induction k generalizing n with
  | zero => rfl
  | succ k ih => simp [toLe, ih]

@[simp] theorem toBe_length (k n : Nat) : (toBe k n).length = k := by
  simp [toBe]

theorem toLe_lt (k n : Nat) : ∀ b ∈ toLe k n, b < 256 := by
  induction k generalizing n with
  | zero => simp [toLe]
  | succ k ih =>
    intro b hb
    simp only [toLe, List.mem_cons] at hb
    rcases hb with h | h
    · omega
    · exact ih _ _ h

theorem toBe_lt (k n : Nat) : ∀ b ∈ toBe k n, b < 256 := by
  intro b hb
  exact toLe_lt k n b (List.mem_reverse.mp hb)

theorem fromLe_toLe (k n : Nat) (h : n < 256 ^ k) : fromLe (toLe k n) = n := by
  induction k generalizing n with
  | zero => simp at h; subst h; rfl
  | succ k ih =>
    have hdiv : n / 256 < 256 ^ k := by
      rw [Nat.div_lt_iff_lt_mul (by omega)]
      calc n < 256 ^ (k + 1) := h
        _ = 256 ^ k * 256 := by ring
    simp only [toLe, fromLe, ih _ hdiv]
    omega

theorem toLe_fromLe (bs : List Nat) (h : ∀ b ∈ bs, b < 256) :
    toLe bs.length (fromLe bs) = bs := by
  induction bs with
  | nil => rfl
  | cons b r ih =>
    have hb : b < 256 := h b (by simp)
    have hr : ∀ x ∈ r, x < 256 := fun x hx => h x (by simp [hx])
    simp only [List.length_cons, toLe, fromLe]
    have h1 : (b + 256 * fromLe r) % 256 = b := by omega
    have h2 : (b + 256 * fromLe r) / 256 = fromLe r := by omega
    rw [h1, h2, ih hr]

theorem fromLe_lt (bs : List Nat) (h : ∀ b ∈ bs, b < 256) :
    fromLe bs < 256 ^ bs.length := by
  induction bs with
  | nil => simp [fromLe]
  | cons b r ih =>
    have hb : b < 256 := h b (by simp)
    have hr := ih (fun x hx => h x (by simp [hx]))
    simp only [fromLe, List.length_cons, pow_succ]
    omega

theorem fromBe_toBe (k n : Nat) (h : n < 256 ^ k) : fromBe (toBe k n) = n := by
  simp [fromBe, toBe, fromLe_toLe k n h]

theorem toBe_fromBe (bs : List Nat) (h : ∀ b ∈ bs, b < 256) :
    toBe bs.length (fromBe bs) = bs := by
  have := toLe_fromLe bs.reverse (fun b hb => h b (List.mem_reverse.mp hb))
  simp only [fromBe, toBe, List.length_reverse] at *
  rw [this, List.reverse_reverse]

theorem fromBe_lt (bs : List Nat) (h : ∀ b ∈ bs, b < 256) :
    fromBe bs < 256 ^ bs.length := by
  have := fromLe_lt bs.reverse (fun b hb => h b (List.mem_reverse.mp hb))
  simpa [fromBe] using this

/-- Splitting a fixed-width little-endian list at a byte boundary. -/
theorem toLe_add (j k n : Nat) :
    toLe (j + k) n = toLe j n ++ toLe k (n / 256 ^ j) := by
  induction j generalizing n with
  | zero => simp [toLe]
  | succ j ih =>
    have hj : j + 1 + k = (j + k) + 1 := by omega
    rw [hj]
    simp only [toLe, List.cons_append, ih (n / 256)]
    congr 2
    rw [Nat.div_div_eq_div_mul]
    congr 1
    ring

/-- Low bytes only depend on the value modulo the width. -/
theorem toLe_mod (k n : Nat) : toLe k (n % 256 ^ k) = toLe k n := by
  induction k generalizing n with
  | zero => rfl
  | succ k ih =>
    simp only [toLe]
    have hd : (256 : Nat) ∣ 256 ^ (k + 1) := ⟨256 ^ k, by ring⟩
    have h1 : n % 256 ^ (k + 1) % 256 = n % 256 := Nat.mod_mod_of_dvd n hd
    have h2 : n % 256 ^ (k + 1) / 256 = n / 256 % 256 ^ k := by
      rw [pow_succ']
      exact Nat.mod_mul_right_div_self ..
    rw [h1, h2, ih (n / 256)]

theorem from58_append (xs ys : List Nat) :
    from58 (xs ++ ys) = from58 xs * 58 ^ ys.length + from58 ys := by
  induction ys using List.reverseRecOn with
  | nil => simp [from58]
  | append_singleton ys y ih =>
    simp only [from58, List.foldl_append, List.foldl_cons, List.foldl_nil] at *
    simp [ih, pow_succ]
    ring

theorem fromBe_append (xs ys : List Nat) :
    fromBe (xs ++ ys) = fromBe xs * 256 ^ ys.length + fromBe ys := by
  induction ys using List.reverseRecOn with
  | nil => simp [fromBe]
  | append_singleton ys y ih =>
    simp only [fromBe, List.reverse_append, List.reverse_cons, List.reverse_nil,
      List.nil_append, List.cons_append, fromLe] at *
    simp only [List.length_append, List.length_cons, List.length_nil]
    simp [fromLe, ih, pow_succ]
    ring

/-- The base-58 digit expansion is exact for values within the fuel bound. -/
theorem from58_digits58 (fuel n : Nat) (h : n < 58 ^ fuel) :
    from58 (digits58 fuel n) = n := by
  induction fuel generalizing n with
  | zero => simp at h; simp [h, digits58, from58]
  | succ fuel ih =>
    by_cases h0 : n = 0
    · simp [h0, digits58, from58]
    · have hdiv : n / 58 < 58 ^ fuel := by
        rw [Nat.div_lt_iff_lt_mul (by omega)]
        calc n < 58 ^ (fuel + 1) := h
          _ = 58 ^ fuel * 58 := by ring
      simp only [digits58, h0, if_false, from58_append, ih _ hdiv]
      simp [from58]
      omega

theorem digits58_lt (fuel n : Nat) : ∀ d ∈ digits58 fuel n, d < 58 := by
  induction fuel generalizing n with
  | zero => simp [digits58]
  | succ fuel ih =>
    intro d hd
    simp only [digits58] at hd
    split at hd
    · simp at hd
    · simp only [List.mem_append, List.mem_singleton] at hd
      rcases hd with h | h
      · exact ih _ _ h
      · omega

theorem digits58_head_ne_zero (fuel n : Nat) (hn : n ≠ 0) (hf : n < 58 ^ fuel) :
    ∃ d rest, digits58 fuel n = d :: rest ∧ d ≠ 0 := by
  induction fuel generalizing n with
  | zero => simp at hf; omega
  | succ fuel ih =>
    simp only [digits58, hn, if_false]
    by_cases h0 : n / 58 = 0
    · refine ⟨n % 58, [], by simp [digits58, h0], ?_⟩
      omega
    · have hdiv : n / 58 < 58 ^ fuel := by
        rw [Nat.div_lt_iff_lt_mul (by omega)]
        calc n < 58 ^ (fuel + 1) := hf
          _ = 58 ^ fuel * 58 := by ring
      obtain ⟨d, rest, heq, hd⟩ := ih _ h0 hdiv
      exact ⟨d, rest ++ [n % 58], by simp [heq], hd⟩

/-- Length bound: a value below `58 ^ len(digits)` (digit expansion is tight). -/
theorem lt_pow_digits58_length (fuel n : Nat) (h : n < 58 ^ fuel) :
    n < 58 ^ (digits58 fuel n).length := by
  induction fuel generalizing n with
  | zero => simpa [digits58] using h
  | succ fuel ih =>
    by_cases h0 : n = 0
    · simp [h0]
    · have hdiv : n / 58 < 58 ^ fuel := by
        rw [Nat.div_lt_iff_lt_mul (by omega)]
        calc n < 58 ^ (fuel + 1) := h
          _ = 58 ^ fuel * 58 := by ring
      have := ih _ hdiv
      simp only [digits58, h0, if_false, List.length_append, List.length_cons,
        List.length_nil, pow_succ]
      have h58 : n < (n / 58 + 1) * 58 := by omega
      calc n < (n / 58 + 1) * 58 := h58
        _ ≤ 58 ^ (digits58 fuel (n / 58)).length * 58 := by
            have : n / 58 + 1 ≤ 58 ^ (digits58 fuel (n / 58)).length := this
            exact Nat.mul_le_mul_right 58 this
        _ = 58 ^ ((digits58 fuel (n / 58)).length + 0 + 1) := by ring

@[simp] theorem bytesOfNat_zero (fuel : Nat) : bytesOfNat fuel 0 = [] := by
  cases fuel <;> simp [bytesOfNat]

theorem fromBe_cons (y : Nat) (ys : List Nat) :
    fromBe (y :: ys) = y * 256 ^ ys.length + fromBe ys := by
  have h := fromBe_append [y] ys
  simpa [fromBe, fromLe] using h

theorem fromBe_ne_zero (y : Nat) (ys : List Nat) (hy : y ≠ 0) :
    fromBe (y :: ys) ≠ 0 := by
  rw [fromBe_cons]
  have : (0 : Nat) < 256 ^ ys.length := Nat.pos_pow_of_pos _ (by omega)
  intro hcon
  have : y * 256 ^ ys.length = 0 := by omega
  rcases Nat.mul_eq_zero.mp this with h | h
  · exact hy h
  · omega

/-- The big-endian byte expansion reproduces a canonical byte list
with nonzero leading byte. -/
theorem bytesOfNat_fromBe (bs : List Nat) :
    ∀ fuel, (∀ b ∈ bs, b < 256) → bs.head? ≠ some 0 → bs.length ≤ fuel →
    bytesOfNat fuel (fromBe bs) = bs := by
  induction bs using List.reverseRecOn with
  | nil => intro fuel _ _ _; simp [fromBe, fromLe]
  | append_singleton xs x ih =>
    intro fuel hb hh hfuel
    have hx : x < 256 := hb x (by simp)
    have hxs : ∀ b ∈ xs, b < 256 := fun b h => hb b (by simp [h])
    have hval : fromBe (xs ++ [x]) = fromBe xs * 256 + x := by
      rw [fromBe_append]
      simp [fromBe, fromLe]
    rcases fuel with _ | fuel
    · simp at hfuel
    · rw [hval]
      rcases xs with _ | ⟨y, ys⟩
      · have hxne : x ≠ 0 := by simpa using hh
        have h0 : fromBe ([] : List Nat) = 0 := by simp [fromBe, fromLe]
        simp only [h0, Nat.zero_mul, Nat.zero_add, bytesOfNat, hxne, if_false]
        rw [Nat.div_eq_of_lt hx, bytesOfNat_zero, Nat.mod_eq_of_lt hx]
      · have hy : y ≠ 0 := by simpa using hh
        have hne : fromBe (y :: ys) * 256 + x ≠ 0 := by
          have := fromBe_ne_zero y ys hy
          omega
        simp only [bytesOfNat, hne, if_false]
        have hdiv : (fromBe (y :: ys) * 256 + x) / 256 = fromBe (y :: ys) := by omega
        have hmod : (fromBe (y :: ys) * 256 + x) % 256 = x := by omega
        rw [hdiv, hmod, ih fuel hxs (by simp [hy]) (by simpa using hfuel)]

theorem idx58_alphabet : ∀ d, d < 58 → idx58 (alphabet58.getD d 0) = some d := by
  decide

theorem alphabet_ne_one : ∀ d, d < 58 → d ≠ 0 → alphabet58.getD d 0 ≠ 49 := by
  decide

theorem digitsOfChars_map (ds : List Nat) (h : ∀ d ∈ ds, d < 58) :
    digitsOfChars (ds.map (fun d => alphabet58.getD d 0)) = some ds := by
  induction ds with
  | nil => rfl
  | cons d rest ih =>
    have hd : d < 58 := h d (by simp)
    have hrest : ∀ x ∈ rest, x < 58 := fun x hx => h x (by simp [hx])
    simp only [List.map_cons, digitsOfChars, idx58_alphabet d hd, ih hrest]

/-- Round trip of the modelled base58 codec on canonical byte lists whose
first byte is nonzero (extended-key payloads always start with a nonzero
version byte). -/
theorem base58_roundtrip (bs : List Nat) (hb : ∀ b ∈ bs, b < 256)
    (hh : bs.head? ≠ some 0) :
    base58Decode (base58Encode bs) = some bs := by
  rcases bs with _ | ⟨y, ys⟩
  · rfl
  · have hy : y ≠ 0 := by simpa using hh
    have hv : fromBe (y :: ys) ≠ 0 := fromBe_ne_zero y ys hy
    set L := (y :: ys).length with hL
    set v := fromBe (y :: ys) with hvdef
    have hvlt : v < 256 ^ L := fromBe_lt _ hb
    have h256 : (256 : Nat) ^ L ≤ 58 ^ (2 * L) := by
      calc (256 : Nat) ^ L ≤ 3364 ^ L := Nat.pow_le_pow_left (by omega) L
        _ = 58 ^ (2 * L) := by
            rw [show (3364 : Nat) = 58 * 58 by norm_num, Nat.mul_pow, two_mul, pow_add]
    have hvfuel : v < 58 ^ (2 * L) := lt_of_lt_of_le hvlt h256
    obtain ⟨d, rest, hdig, hd0⟩ := digits58_head_ne_zero (2 * L) v hv hvfuel
    have hdlt : ∀ x ∈ digits58 (2 * L) v, x < 58 := digits58_lt _ _
    have hd58 : d < 58 := hdlt d (by rw [hdig]; simp)
    -- the encoder output: no leading zero bytes, so no leading one digits
    have htake0 : ((y :: ys).takeWhile (· = 0)).length = 0 := by
      simp [List.takeWhile, hy]
    have hchar : alphabet58.getD d 0 ≠ 49 := alphabet_ne_one d hd58 hd0
    simp only [base58Encode, htake0, List.replicate, List.nil_append]
    rw [hdig]
    simp only [base58Decode, List.map_cons, List.takeWhile]
    have : decide (alphabet58.getD d 0 = 49) = false := by
      simpa using hchar
    rw [this]
    simp only [List.length_nil, List.drop_zero]
    have hmap : digitsOfChars (alphabet58.getD d 0 :: rest.map (fun x => alphabet58.getD x 0)) =
        some (d :: rest) := by
      have := digitsOfChars_map (d :: rest) (by rw [← hdig]; exact hdlt)
      simpa using this
    rw [hmap]
    have hfrom : from58 (d :: rest) = v := by
      rw [← hdig]
      exact from58_digits58 _ _ hvfuel
    simp only [List.length_cons, List.length_map]
    rw [hfrom]
    -- length of the digit string is at least the byte length
    have hvbig : 256 ^ (L - 1) ≤ v := by
      rw [hvdef, fromBe_cons]
      have : 1 ≤ y := by omega
      have hys : L - 1 = ys.length := by simp [hL]
      calc 256 ^ (L - 1) = 256 ^ ys.length := by rw [hys]
        _ ≤ y * 256 ^ ys.length := Nat.le_mul_of_pos_left _ (by omega)
        _ ≤ y * 256 ^ ys.length + fromBe ys := Nat.le_add_right _ _
    have hvd : v < 58 ^ (digits58 (2 * L) v).length := lt_pow_digits58_length _ _ hvfuel
    have hlen : L ≤ rest.length + 1 := by
      by_contra hcon
      push_neg at hcon
      have h1 : (digits58 (2 * L) v).length = rest.length + 1 := by simp [hdig]
      have h2 : v < 256 ^ (rest.length + 1) := by
        calc v < 58 ^ (rest.length + 1) := by rw [← h1]; exact hvd
          _ ≤ 256 ^ (rest.length + 1) := Nat.pow_le_pow_left (by omega) _
      have h3 : (256 : Nat) ^ (rest.length + 1) ≤ 256 ^ (L - 1) :=
        Nat.pow_le_pow_right (by omega) (by omega)
      omega
    rw [bytesOfNat_fromBe (y :: ys) (rest.length + 1) hb hh (by simpa [hL] using hlen)]
    simp

theorem take_append_len {α : Type} (l₁ l₂ : List α) (n : Nat) (h : l₁.length = n) :
    (l₁ ++ l₂).take n = l₁ := by
  subst h
  exact List.take_left _ _

theorem drop_append_len {α : Type} (l₁ l₂ : List α) (n : Nat) (h : l₁.length = n) :
    (l₁ ++ l₂).drop n = l₂ := by
  subst h
  exact List.drop_left _ _

theorem getD_append_len {α : Type} [Inhabited α] (l₁ l₂ : List α) (n : Nat)
    (h : l₁.length = n) (d : α) : (l₁ ++ l₂).getD n d = l₂.getD 0 d := by
  subst h
  simp [List.getD, List.getElem?_append_right (Nat.le_refl _)]

theorem toU32_lt (i : ChildIndex) (h : i.wf) : i.toU32 < 2 ^ 32 := by
  cases i <;> simp [ChildIndex.wf] at h <;> simp [ChildIndex.toU32] <;> omega

theorem ofU32_toU32 (i : ChildIndex) (h : i.wf) : ChildIndex.ofU32 i.toU32 = i := by
  cases i with
  | Normal j =>
    simp [ChildIndex.wf] at h
    simp [ChildIndex.toU32, ChildIndex.ofU32, h]
  | Hardened j =>
    simp [ChildIndex.wf] at h
    have h1 : ¬ (j + 2 ^ 31 < 2 ^ 31) := by omega
    simp [ChildIndex.toU32, ChildIndex.ofU32, h1]

/-- Version-prefix facts for the modelled registry. -/
theorem versionBytes_length (f : Format) : (versionBytes f).length = 4 := by
  cases f <;> rfl

theorem versionBytes_lt (f : Format) : ∀ b ∈ versionBytes f, b < 256 := by
  cases f <;> decide

theorem formatFromVersion_versionBytes (f : Format) :
    formatFromVersion (versionBytes f) = some f := by
  cases f <;> rfl

/-- C2: for every well-formed Bitcoin extended private key (as produced by
new_master or derive, with a version-byte lookup that succeeds), parsing the
base58check serialization yields exactly the key, field by field. -/
theorem from_str_to_string_roundtrip (C : Crypto) (K : XPrv)
    (hcs : checksumWf C.checksum) (hK : K.wf) :
    from_str C (to_string C K) = .ok K := by
  obtain ⟨kf, kd, kfp, kci, kcc, ksk⟩ := K
  obtain ⟨hd, hfpl, hfpb, hci, hccl, hccb, hsk1, hskn⟩ := hK
  simp only at hd hfpl hfpb hci hccl hccb hsk1 hskn
  set K : XPrv := ⟨kf, kd, kfp, kci, kcc, ksk⟩ with hK
  obtain ⟨hcl, hcb⟩ := hcs (serializeBody K)
  set A := versionBytes kf with hA
  set B : List Nat := [kd] with hB
  set D := toBe 4 kci.toU32 with hD
  set F : List Nat := [0] with hF
  set G := toBe 32 ksk with hG
  set H := (C.checksum (serializeBody K)).take 4 with hH
  have hvl : A.length = 4 := by rw [hA]; exact versionBytes_length kf
  have hbl : (serializeBody K).length = 78 := by
    simp [serializeBody, hK, ← hA, ← hB, ← hD, ← hF, ← hG, hvl, hfpl, hccl]
    rw [hB, hD, hF, hG]
    simp
  have hHl : H.length = 4 := by
    simp [hH, List.length_take, hcl]
  set full := serializeBody K ++ H with hfull
  have hful : full.length = 82 := by
    simp [hfull, hbl, hHl]
  have hfa : full = A ++ (B ++ (kfp ++ (D ++ (kcc ++ (F ++ (G ++ H)))))) := by
    simp [hfull, serializeBody, hK, ← hA, ← hB, ← hD, ← hF, ← hG,
      List.append_assoc]
  have hvb : ∀ b ∈ A, b < 256 := by
    rw [hA]; exact versionBytes_lt kf
  have hfb : ∀ b ∈ full, b < 256 := by
    intro b hb
    rw [hfa] at hb
    simp only [List.mem_append] at hb
    rcases hb with h | h | h | h | h | h | h | h
    · exact hvb b h
    · rw [hB] at h; simp at h; omega
    · exact hfpb b h
    · rw [hD] at h; exact toBe_lt _ _ b h
    · exact hccb b h
    · rw [hF] at h; simp at h; omega
    · rw [hG] at h; exact toBe_lt _ _ b h
    · rw [hH] at h; exact hcb b (List.mem_of_mem_take h)
  have hhead : full.head? = some 4 := by
    rw [hfa, hA]
    cases kf <;> rfl
  have hh0 : full.head? ≠ some 0 := by rw [hhead]; simp
  have hb58 := base58_roundtrip full hfb hh0
  have hts : to_string C K = base58Encode full := by
    simp [to_string, hfull, ← hH]
  rw [hts]
  simp only [from_str, hb58]
  have e_take4 : full.take 4 = A := by
    rw [hfa]; exact take_append_len _ _ _ hvl
  have e_fmt : formatFromVersion A = some kf := by
    rw [hA]; exact formatFromVersion_versionBytes kf
  have e_depth : full.getD 4 0 = kd := by
    rw [hfa, getD_append_len _ _ _ hvl]
    rw [hB]; rfl
  have h5 : full = (A ++ B) ++ (kfp ++ (D ++ (kcc ++ (F ++ (G ++ H))))) := by
    rw [hfa]; simp [List.append_assoc]
  have e_fp : (full.drop 5).take 4 = kfp := by
    rw [h5, drop_append_len _ _ 5 (by simp [hvl, hB])]
    exact take_append_len _ _ _ hfpl
  have h9 : full = ((A ++ B) ++ kfp) ++ (D ++ (kcc ++ (F ++ (G ++ H)))) := by
    rw [hfa]; simp [List.append_assoc]
  have e_ci : (full.drop 9).take 4 = D := by
    rw [h9, drop_append_len _ _ 9 (by simp [hvl, hB, hfpl])]
    exact take_append_len _ _ _ (by simp [hD])
  have h13 : full = (((A ++ B) ++ kfp) ++ D) ++ (kcc ++ (F ++ (G ++ H))) := by
    rw [hfa]; simp [List.append_assoc]
  have e_cc : (full.drop 13).take 32 = kcc := by
    rw [h13, drop_append_len _ _ 13 (by simp [hvl, hB, hfpl, hD])]
    exact take_append_len _ _ _ hccl
  have h46 : full = ((((A ++ B) ++ kfp) ++ D) ++ (kcc ++ F)) ++ (G ++ H) := by
    rw [hfa]; simp [List.append_assoc]
  have e_sk : (full.drop 46).take 32 = G := by
    rw [h46, drop_append_len _ _ 46 (by simp [hvl, hB, hfpl, hD, hccl, hF])]
    exact take_append_len _ _ _ (by simp [hG])
  have e_body : full.take 78 = serializeBody K := by
    rw [hfull]; exact take_append_len _ _ _ hbl
  have e_cks : (full.drop 78).take 4 = H := by
    rw [hfull, drop_append_len _ _ 78 hbl]
    exact List.take_of_length_le (by rw [hHl])
  have hn256 : nSecp < 256 ^ 32 := by norm_num [nSecp]
  have e_skv : fromBe G = ksk := by
    rw [hG]; exact fromBe_toBe 32 _ (by omega)
  have e_sfb : secretFromBytes G = .ok ksk := by
    simp [secretFromBytes, e_skv, hG, hsk1, hskn]
  have e_civ : ChildIndex.ofU32 (fromBe D) = kci := by
    rw [hD, fromBe_toBe 4 _ (by simpa using toU32_lt _ hci)]
    exact ofU32_toU32 _ hci
  simp only [parse82, hful, if_pos rfl, e_take4, e_fmt, e_depth, e_fp, e_ci,
    e_cc, e_sk, e_sfb, e_body, e_cks, e_civ]
  simp [hK]

/-! ## Derivation-loop lemmas -/

theorem secretFromBytes_error (bs : List Nat) (e : XKeyError)
    (h : secretFromBytes bs = .error e) : e = .invalidScalar := by
  simp only [secretFromBytes] at h
  split at h
  · cases h
  · cases h
    rfl

theorem deriveStep_error (C : Crypto) (k : XPrv) (i : ChildIndex) (e : XKeyError)
    (h : deriveStep C k i = .error e) : e = .invalidScalar := by
  simp only [deriveStep] at h
  split at h
  · next e2 heq =>
    cases h
    exact secretFromBytes_error _ _ heq
  · split at h
    · cases h
      rfl
    · cases h

theorem deriveStep_depth (C : Crypto) (k : XPrv) (i : ChildIndex) (k2 : XPrv)
    (h : deriveStep C k i = .ok k2) : k2.depth = (k.depth + 1) % 256 := by
  simp only [deriveStep] at h
  split at h
  · cases h
  · split at h
    · cases h
    · cases h
      rfl

theorem foldSteps_append (C : Crypto) (p q : List ChildIndex) :
    ∀ k, foldSteps C k (p ++ q) =
      (foldSteps C k p).bind (fun x => foldSteps C x q) := by
  induction p with
  | nil => intro k; simp [foldSteps, Except.bind]
  | cons i rest ih =>
    intro k
    simp only [List.cons_append, foldSteps]
    cases hs : deriveStep C k i with
    | error e => rfl
    | ok k2 => exact ih k2

theorem foldSteps_no_maxdepth (C : Crypto) :
    ∀ (p : List ChildIndex) (k : XPrv) (d : Nat),
      foldSteps C k p ≠ .error (.maximumChildDepthReached d) := by
  intro p
  induction p with
  | nil => intro k d h; cases h
  | cons i rest ih =>
    intro k d h
    simp only [foldSteps] at h
    revert h
    cases hs : deriveStep C k i with
    | error e =>
      intro h
      cases h
      have := deriveStep_error C k i _ hs
      simp at this
    | ok k2 =>
      intro h
      exact ih k2 d h

theorem foldSteps_depth (C : Crypto) :
    ∀ (p : List ChildIndex) (k : XPrv) (k2 : XPrv), k.depth < 256 →
      foldSteps C k p = .ok k2 → k2.depth = (k.depth + p.length) % 256 := by
  intro p
  induction p with
  | nil =>
    intro k k2 hlt h
    cases h
    simp
    omega
  | cons i rest ih =>
    intro k k2 hlt h
    simp only [foldSteps] at h
    revert h
    cases hs : deriveStep C k i with
    | error e => intro h; cases h
    | ok kmid =>
      intro h
      have hmid : kmid.depth = (k.depth + 1) % 256 := deriveStep_depth C k i kmid hs
      have := ih kmid k2 (by omega) h
      rw [hmid] at this
      simp only [List.length_cons]
      omega

theorem checksumWf_cryptoDemo : checksumWf cryptoDemo.checksum := by
  intro data
  constructor
  · simp [cryptoDemo]
  · intro b hb
    simp [cryptoDemo] at hb
    omega

theorem keyDemo_wf : keyDemo.wf := by
  refine ⟨by norm_num [keyDemo], by simp [keyDemo], ?_, ?_, by simp [keyDemo], ?_, ?_, ?_⟩
  · intro b hb
    simp [keyDemo] at hb
    omega
  · simp [keyDemo, ChildIndex.wf]
  · intro b hb
    simp [keyDemo] at hb
    omega
  · simp [keyDemo]
  · norm_num [keyDemo, nSecp]

/-- C2 witness input: a well-formed key round-trips at a concrete instance. -/
theorem from_str_to_string_roundtrip_witness :
    from_str cryptoDemo (to_string cryptoDemo keyDemo) = .ok keyDemo :=
  from_str_to_string_roundtrip cryptoDemo keyDemo checksumWf_cryptoDemo keyDemo_wf

set_option maxRecDepth 8000 in
/-- C3 (counterexample): path-concatenation associativity fails as stated.
With p of length 255 and q empty, derive(derive(master, p), q) runs the
once-per-call depth check on a depth-255 key and fails, while
derive(master, p ++ q) succeeds. -/
theorem derive_concat_counterexample :
    ((derive cryptoDemo keyDemo (List.replicate 255 (ChildIndex.Normal 0))).bind
        (fun x => derive cryptoDemo x [])) ≠
      derive cryptoDemo keyDemo (List.replicate 255 (ChildIndex.Normal 0) ++ []) := by
  decide

/-- C3 (amended): derivation is associative over path concatenation for a
master key (depth 0) when the total length is within the depth bound, except
in the single edge case p.length = 255 with q empty. -/
theorem derive_concat_assoc (C : Crypto) (k : XPrv) (p q : List ChildIndex)
    (hk : k.depth = 0) (hlen : p.length + q.length ≤ 255)
    (hedge : ¬(p.length = 255 ∧ q = [])) :
    (derive C k p).bind (fun x => derive C x q) = derive C k (p ++ q) := by
  have h0 : ¬ (k.depth = 255) := by omega
  simp only [derive, if_neg h0]
  rw [foldSteps_append]
  cases hf : foldSteps C k p with
  | error e => rfl
  | ok k1 =>
    simp only [Except.bind]
    have hdep : k1.depth = p.length := by
      have := foldSteps_depth C p k k1 (by omega) hf
      rw [hk] at this
      omega
    have hne : ¬ (k1.depth = 255) := by
      intro hc
      rw [hdep] at hc
      have hq : q ≠ [] := fun hq0 => hedge ⟨hc, hq0⟩
      have : 0 < q.length := List.length_pos.mpr hq
      omega
    simp only [if_neg hne]

/-- C3 witness: the amended associativity at a concrete one-step instance. -/
theorem derive_concat_assoc_witness :
    keyDemo.depth = 0 ∧
    ((derive cryptoDemo keyDemo [ChildIndex.Normal 0]).bind
        (fun x => derive cryptoDemo x [ChildIndex.Normal 0])) =
      derive cryptoDemo keyDemo ([ChildIndex.Normal 0] ++ [ChildIndex.Normal 0]) :=
  ⟨rfl, derive_concat_assoc cryptoDemo keyDemo _ _ rfl (by decide) (by decide)⟩

/-- C6: derive fails with MaximumChildDepthReached(255) iff the key has
depth 255; the depth bound is checked once, before the loop, so a key of
smaller depth never produces this error, for any path and any payload. -/
theorem derive_maxdepth_iff (C : Crypto) (k : XPrv) (p : List ChildIndex) :
    (derive C k p = .error (.maximumChildDepthReached 255) ↔ k.depth = 255) ∧
    (∀ d, derive C k p = .error (.maximumChildDepthReached d) → k.depth = 255) := by
  constructor
  · constructor
    · intro h
      by_contra hne
      simp only [derive, if_neg hne] at h
      exact foldSteps_no_maxdepth C p k 255 h
    · intro h
      simp [derive, h]
  · intro d h
    by_contra hne
    simp only [derive, if_neg hne] at h
    exact foldSteps_no_maxdepth C p k d h

/-- C6 witness: a depth-255 key fails immediately, even on the empty path. -/
theorem derive_maxdepth_iff_witness :
    derive cryptoDemo keyDemo255 [] = .error (.maximumChildDepthReached 255) :=
  ((derive_maxdepth_iff cryptoDemo keyDemo255 []).1).mpr rfl

/-- C9: the depth bound is not re-checked inside the loop.  From a parent
at depth 254 with a path of length at least 2, derive never reports
MaximumChildDepthReached, and on success the resulting depth is the wrapped
sum (254 + length) mod 256. -/
theorem derive_depth_wrap (C : Crypto) (k : XPrv) (p : List ChildIndex)
    (hk : k.depth = 254) (hp : 2 ≤ p.length) :
    (∀ d, derive C k p ≠ .error (.maximumChildDepthReached d)) ∧
    (∀ k2, derive C k p = .ok k2 → k2.depth = (254 + p.length) % 256) := by
  have hne : ¬ (k.depth = 255) := by omega
  constructor
  · intro d h
    simp only [derive, if_neg hne] at h
    exact foldSteps_no_maxdepth C p k d h
  · intro k2 h
    simp only [derive, if_neg hne] at h
    have := foldSteps_depth C p k k2 (by omega) h
    rw [hk] at this
    exact this

/-- C9 witness: a depth-254 parent with a two-step path wraps to depth 0
without a depth error. -/
theorem derive_depth_wrap_witness :
    keyDemo254.depth = 254 ∧
    2 ≤ ([ChildIndex.Normal 0, ChildIndex.Normal 0] : List ChildIndex).length ∧
    derive cryptoDemo keyDemo254 [ChildIndex.Normal 0, ChildIndex.Normal 0] ≠
      .error (.maximumChildDepthReached 255) ∧
    derive cryptoDemo keyDemo254 [ChildIndex.Normal 0, ChildIndex.Normal 0] =
      .ok { format := .P2PKH, depth := 0,
            parent_fingerprint := List.replicate 4 3,
            child_index := .Normal 0, chain_code := List.replicate 32 0,
            secret_key := 3 } :=
  ⟨rfl, by decide,
    (derive_depth_wrap cryptoDemo keyDemo254 _ rfl (by decide)).1 255,
    by decide⟩

/-- C7 (amended): every key produced by new_master satisfies the depth
invariant, with depth 0, zero parent fingerprint, and child index Normal(0);
from_str performs no such validation and can return violating keys. -/
theorem new_master_invariant (C : Crypto) (seed : List Nat) (f : Format)
    (k : XPrv) (h : new_master C seed f = .ok k) :
    k.depth = 0 ∧ k.parent_fingerprint = List.replicate 4 0 ∧
      k.child_index = .Normal 0 := by
  simp only [new_master] at h
  split at h
  · cases h
  · cases h
    exact ⟨rfl, rfl, rfl⟩

/-- C7 witness: new_master at a concrete seed satisfies the invariant. -/
theorem new_master_invariant_witness :
    new_master cryptoDemo [0] Format.P2PKH = .ok keyDemo ∧
    (keyDemo.depth = 0 ∧ keyDemo.parent_fingerprint = List.replicate 4 0 ∧
      keyDemo.child_index = .Normal 0) :=
  ⟨by decide, new_master_invariant cryptoDemo [0] Format.P2PKH keyDemo (by decide)⟩

set_option maxRecDepth 8000 in
/-- C7 (counterexample): from_str accepts a payload that decodes to a key
violating the depth invariant, so not every reachable value satisfies it. -/
theorem from_str_invariant_counterexample :
    from_str cryptoDemo (base58Encode payloadBad) = .ok keyBad ∧
    ¬ depthInvariant keyBad := by
  constructor
  · decide
  · intro hinv
    have h0 : keyBad.depth = 0 := rfl
    have := (hinv.mp h0).1
    simp [keyBad, List.replicate] at this

/-- C8: from_str does not validate the byte at offset 45.  Any 82-byte
payload with recognized version bytes, a valid scalar at offsets 46..78 and
a correct trailing checksum parses successfully; no hypothesis constrains
byte 45. -/
theorem parse82_ignores_byte45 (C : Crypto) (data : List Nat) (f : Format)
    (h82 : data.length = 82)
    (hfmt : formatFromVersion (data.take 4) = some f)
    (hsk1 : 1 ≤ fromBe ((data.drop 46).take 32))
    (hskn : fromBe ((data.drop 46).take 32) < nSecp)
    (hcks : (data.drop 78).take 4 = (C.checksum (data.take 78)).take 4) :
    (parse82 C data).isOk = true := by
  have hlen : ((data.drop 46).take 32).length = 32 := by
    simp [List.length_take, List.length_drop, h82]
  have hsfb : secretFromBytes ((data.drop 46).take 32) =
      .ok (fromBe ((data.drop 46).take 32)) := by
    simp [secretFromBytes, hlen, hsk1, hskn]
  simp only [parse82, h82, hfmt, hsfb, hcks]
  simp

/-- C8 witness: the nonzero byte at offset 45 does not prevent parsing. -/
theorem parse82_ignores_byte45_witness :
    payload45.getD 45 0 = 7 ∧ (parse82 cryptoDemo payload45).isOk = true :=
  ⟨by decide,
    parse82_ignores_byte45 cryptoDemo payload45 .P2PKH (by decide) (by decide)
      (by decide) (by decide) (by decide)⟩

/-! ## Wordlist lemmas and a concrete executable wordlist -/

theorem lookupTrimmedAux_lt (P : Nat) (t : List Nat) :
    ∀ (ws : List (List Nat)) (k j : Nat),
      lookupTrimmedAux P t ws k = some j → j < k + ws.length := by
  intro ws
  induction ws with
  | nil => intro k j h; cases h
  | cons w rest ih =>
    intro k j h
    simp only [lookupTrimmedAux] at h
    split at h
    · cases h; simp
    · have := ih (k + 1) j h
      simp only [List.length_cons]
      omega

theorem getIndexTrimmed_lt (W : Wordlist) (t : List Nat) (j : Nat)
    (h : W.getIndexTrimmed t = some j) : j < W.words.length := by
  have := lookupTrimmedAux_lt W.plen t W.words 0 j h
  omega

theorem wordlistDemo_words : wordlistDemo.words = wordsDemoList := by
  simp only [wordlistDemo]

theorem wordlistDemo_plen : wordlistDemo.plen = 3 := by
  simp only [wordlistDemo]

theorem wordDemo_inj {i j : Nat} (h : wordDemo i = wordDemo j) : i = j := by
  simp [wordDemo] at h
  omega

theorem lookupAux_range (i : Nat) :
    ∀ m s, s ≤ i → i < s + m →
      lookupTrimmedAux 3 (wordDemo i) ((List.range' s m).map wordDemo) s =
        some i := by
  intro m
  induction m with
  | zero => intro s h1 h2; omega
  | succ m ih =>
    intro s h1 h2
    have hr : List.range' s (m + 1) = s :: List.range' (s + 1) m := rfl
    rw [hr]
    simp only [List.map_cons, lookupTrimmedAux]
    have ht : (wordDemo s).take 3 = wordDemo s := by simp [wordDemo]
    by_cases he : s = i
    · subst he
      simp [ht]
    · have hne : wordDemo s ≠ wordDemo i := fun hc => he (wordDemo_inj hc)
      rw [ht, if_neg hne]
      exact ih (s + 1) (by omega) (by omega)

theorem wordlistDemo_length : wordlistDemo.words.length = 1626 := by
  rw [wordlistDemo_words]
  simp only [wordsDemoList, List.length_map, List.length_range]

theorem wordlistDemo_get (i : Nat) (h : i < wordlistDemo.words.length) :
    wordlistDemo.words.get ⟨i, h⟩ = wordDemo i := by
  simp [wordlistDemo, wordsDemoList]

theorem lookupConsistent_wordlistDemo : lookupConsistent wordlistDemo := by
  intro i h
  rw [wordlistDemo_get i h]
  have ht : wordlistDemo.toTrimmed (wordDemo i) = wordDemo i := by
    simp [Wordlist.toTrimmed, wordlistDemo_plen, wordDemo]
  rw [ht]
  simp only [Wordlist.getIndexTrimmed]
  rw [wordlistDemo_plen, wordlistDemo_words]
  simp only [wordsDemoList]
  rw [List.range_eq_range']
  have hi : i < 1626 := by
    have := h
    rw [wordlistDemo_length] at this
    exact this
  exact lookupAux_range i 1626 0 (by omega) (by omega)

/-! ## Claim theorems for the Monero subsystem -/

theorem splitSpAux_no_space (bs : List Nat) :
    ∀ acc, 32 ∉ bs → splitSpAux bs acc = [acc.reverse ++ bs] := by
  induction bs with
  | nil => intro acc _; simp [splitSpAux]
  | cons b rest ih =>
    intro acc h
    have hb : b ≠ 32 := fun hc => h (by simp [hc])
    have hr : 32 ∉ rest := fun hc => h (by simp [hc])
    simp only [splitSpAux, if_neg (by omega : ¬ b = 32)]
    rw [ih (b :: acc) hr]
    simp

/-- C1: from_phrase panics (modelled as `none`) on any single-word phrase:
the word count is 1 ≡ 1 mod 3, both length guards pass, and checksum_word
is reached with an empty word list, dividing by zero.  This refutes the
no-panic guarantee for word counts ≡ 1 mod 3 other than 25. -/
theorem from_phrase_one_word_panics (W : Wordlist) (bs : List Nat)
    (h : 32 ∉ bs) : from_phrase W bs = none := by
  have hsplit : splitSp bs = [bs] := by
    have := splitSpAux_no_space bs [] h
    simpa [splitSp] using this
  simp [from_phrase, hsplit, from_phrase_tail, decodeChunks, checksum_word]

/-- C1 witness: the concrete one-word phrase "abbey" makes from_phrase
panic instead of returning an error value. -/
theorem from_phrase_one_word_panics_witness :
    from_phrase wordlistDemo [97, 98, 98, 101, 121] = none :=
  from_phrase_one_word_panics wordlistDemo _ (by decide)

theorem chunkVal_mod (w1 w2 w3 : Nat) (h : w1 < 1626) :
    chunkVal w1 w2 w3 % 1626 = w1 := by
  simp only [chunkVal]
  omega

theorem decodeChunks_ne_invalidDecoding (W : Wordlist)
    (hW : W.words.length ≤ 1626) (ds : List (List Nat)) :
    decodeChunks W ds ≠ some (.error .invalidDecoding) := by
  generalize hn : ds.length = n
  induction n using Nat.strong_induction_on generalizing ds with
  | _ n IH =>
    match ds, hn with
    | [], _ => simp [decodeChunks]
    | [c1], _ => simp [decodeChunks]
    | [c1, c2], _ => simp [decodeChunks]
    | c1 :: c2 :: c3 :: rest, hn =>
      simp only [List.length_cons] at hn
      simp only [decodeChunks]
      cases h1 : W.getIndexTrimmed (W.toTrimmed c1) with
      | none => simp
      | some w1 =>
        cases h2 : W.getIndexTrimmed (W.toTrimmed c2) with
        | none => simp
        | some w2 =>
          cases h3 : W.getIndexTrimmed (W.toTrimmed c3) with
          | none => simp
          | some w3 =>
            have hw1 : w1 < 1626 := by
              have := getIndexTrimmed_lt W _ _ h1
              omega
            have hx : chunkVal w1 w2 w3 % 1626 = w1 := chunkVal_mod _ w2 w3 hw1
            simp only [hx, ne_eq, not_true_eq_false, if_false]
            cases hrest : decodeChunks W rest with
            | none => simp
            | some r =>
              cases r with
              | error e =>
                have hne := IH rest.length (by omega) rest rfl
                rw [hrest] at hne
                intro hc
                simp only [Option.some_inj] at hc
                cases hc
                exact hne rfl
              | ok buf => simp

theorem from_phrase_tail_ne_invalidDecoding (W : Wordlist)
    (hW : W.words.length ≤ 1626) (data : List (List Nat)) (cW : List Nat) :
    from_phrase_tail W data cW ≠ some (.error .invalidDecoding) := by
  simp only [from_phrase_tail]
  split
  · simp
  · next e heq =>
    have hne := decodeChunks_ne_invalidDecoding W hW data
    rw [heq] at hne
    exact hne
  · split
    · simp
    · split
      · simp
      · split <;> simp

/-- C10: the InvalidDecoding branch of from_phrase is unreachable whenever
the wordlist has at most 1626 entries (indices returned by the trimmed
lookup are then below the modulus, and the unbounded-arithmetic chunk value
satisfies x mod 1626 = w1); chunk values can nevertheless reach beyond
2^32 — the maximum, at indices (1625, 1624, 1623), is 4298942375 — and the
cast to u32 silently truncates them mod 2^32 instead of rejecting them. -/
theorem invalidDecoding_unreachable :
    (∀ (W : Wordlist), W.words.length ≤ 1626 → ∀ p,
        from_phrase W p ≠ some (.error .invalidDecoding)) ∧
    chunkVal 1625 1624 1623 = 4298942375 ∧
    2 ^ 32 ≤ chunkVal 1625 1624 1623 ∧
    toLe 4 (chunkVal 1625 1624 1623 % 2 ^ 32) = toLe 4 3975079 := by
  refine ⟨?_, by decide, by decide, by decide⟩
  intro W hW p
  simp only [from_phrase]
  split
  · simp
  · split
    · simp
    · cases (splitSp p).getLast? with
      | none => simp
      | some cW => exact from_phrase_tail_ne_invalidDecoding W hW _ cW

/-- C10 witness: a concrete wordlist within the bound where the concrete
25-word phrase below is decoded without the InvalidDecoding branch firing. -/
theorem invalidDecoding_unreachable_witness :
    wordlistDemo.words.length ≤ 1626 ∧
    from_phrase wordlistDemo [97] ≠ some (.error .invalidDecoding) :=
  ⟨by rw [wordlistDemo_length],
    invalidDecoding_unreachable.1 wordlistDemo (by rw [wordlistDemo_length]) [97]⟩

/-! ## Round-trip support lemmas for the Monero codec -/

theorem chunk_digits (w1 w2 w3 : Nat) (h1 : w1 < 1626) (h2 : w2 < 1626)
    (h3 : w3 < 1626) :
    chunkVal w1 w2 w3 % 1626 = w1 ∧
    (chunkVal w1 w2 w3 / 1626 + chunkVal w1 w2 w3 % 1626) % 1626 = w2 ∧
    (chunkVal w1 w2 w3 / 1626 / 1626 +
      (chunkVal w1 w2 w3 / 1626 + chunkVal w1 w2 w3 % 1626) % 1626) % 1626 = w3 := by
  set a := (1626 - w1 + w2) % 1626 with ha
  set b := (1626 - w2 + w3) % 1626 with hb
  have hx : chunkVal w1 w2 w3 = w1 + 1626 * (a + 1626 * b) := by
    simp only [chunkVal, ← ha, ← hb]
    ring
  have hmod : chunkVal w1 w2 w3 % 1626 = w1 := by rw [hx]; omega
  have hdiv : chunkVal w1 w2 w3 / 1626 = a + 1626 * b := by rw [hx]; omega
  have hdiv2 : chunkVal w1 w2 w3 / 1626 / 1626 = b := by rw [hdiv]; omega
  refine ⟨hmod, ?_, ?_⟩
  · rw [hdiv, hmod]
    omega
  · rw [hdiv2, hdiv, hmod]
    omega

theorem chunkVal_encode (x : Nat) (h : x < 2 ^ 32) :
    chunkVal (x % 1626) ((x / 1626 + x % 1626) % 1626)
      ((x / 1626 / 1626 + (x / 1626 + x % 1626) % 1626) % 1626) = x := by
  have e1 : (1626 - x % 1626 + (x / 1626 + x % 1626) % 1626) % 1626 =
      x / 1626 % 1626 := by omega
  have e2 : (1626 - (x / 1626 + x % 1626) % 1626 +
      (x / 1626 / 1626 + (x / 1626 + x % 1626) % 1626) % 1626) % 1626 =
      x / 1626 / 1626 % 1626 := by omega
  have e3 : x / 1626 / 1626 % 1626 = x / 1626 / 1626 := by omega
  simp only [chunkVal, e1, e2, e3]
  omega

theorem fromLe_toLe4 (x : Nat) : fromLe (toLe 4 x) = x % 2 ^ 32 := by
  have h : (256 : Nat) ^ 4 = 2 ^ 32 := by norm_num
  rw [← toLe_mod 4 x, h]
  exact fromLe_toLe 4 _ (by rw [← h]; exact Nat.mod_lt _ (by norm_num))

theorem toLe4_mod (x : Nat) : toLe 4 (x % 2 ^ 32) = toLe 4 x := by
  have h : (256 : Nat) ^ 4 = 2 ^ 32 := by norm_num
  rw [← h]
  exact toLe_mod 4 x

theorem chunks4_of_flatten (l : List (List Nat)) (h : ∀ c ∈ l, c.length = 4) :
    chunks4 l.flatten = l := by
  induction l with
  | nil => rfl
  | cons c rest ih =>
    have hc : c.length = 4 := h c (by simp)
    match c, hc with
    | [a, b, c2, d], _ =>
      simp only [List.flatten_cons, List.cons_append, List.nil_append, chunks4]
      exact congrArg _ (ih fun x hx => h x (by simp [hx]))

theorem chunks4_mem (bs : List Nat) :
    ∀ c ∈ chunks4 bs, c.length = 4 ∧ ∀ b ∈ c, b ∈ bs := by
  generalize hn : bs.length = n
  induction n using Nat.strong_induction_on generalizing bs with
  | _ n IH =>
    match bs, hn with
    | [], _ => simp [chunks4]
    | [a], _ => simp [chunks4]
    | [a, b], _ => simp [chunks4]
    | [a, b, c], _ => simp [chunks4]
    | a :: b :: c :: d :: rest, hn =>
      intro ch hch
      simp only [chunks4, List.mem_cons] at hch
      rcases hch with h | h
      · subst h
        refine ⟨rfl, ?_⟩
        intro x hx
        simp at hx
        rcases hx with h | h | h | h <;> simp [h]
      · simp only [List.length_cons] at hn
        have := IH rest.length (by omega) rest rfl ch h
        refine ⟨this.1, ?_⟩
        intro x hx
        have := this.2 x hx
        simp [this]

theorem splitSpAux_ne_nil (bs : List Nat) : ∀ acc, splitSpAux bs acc ≠ [] := by
  induction bs with
  | nil => intro acc h; cases h
  | cons b rest ih =>
    intro acc
    simp only [splitSpAux]
    split
    · simp
    · exact ih (b :: acc)

theorem joinSp_splitSpAux (bs : List Nat) :
    ∀ acc, joinSp (splitSpAux bs acc) = acc.reverse ++ bs := by
  induction bs with
  | nil => intro acc; simp [splitSpAux, joinSp]
  | cons b rest ih =>
    intro acc
    simp only [splitSpAux]
    by_cases hb : b = 32
    · subst hb
      simp only [if_pos rfl]
      cases hrest : splitSpAux rest [] with
      | nil => exact absurd hrest (splitSpAux_ne_nil rest [])
      | cons w l =>
        have := ih []
        rw [hrest] at this
        simp only [List.reverse_nil, List.nil_append] at this
        show joinSp (acc.reverse :: w :: l) = acc.reverse ++ 32 :: rest
        rw [show joinSp (acc.reverse :: w :: l) = acc.reverse ++ 32 :: joinSp (w :: l)
          from rfl, this]
    · rw [if_neg hb, ih (b :: acc)]
      simp

/-- join is a left inverse of split, unconditionally. -/
theorem joinSp_splitSp (bs : List Nat) : joinSp (splitSp bs) = bs := by
  have := joinSp_splitSpAux bs []
  simpa [splitSp] using this

theorem splitSpAux_append (w : List Nat) (t acc : List Nat) (h : 32 ∉ w) :
    splitSpAux (w ++ 32 :: t) acc = (acc.reverse ++ w) :: splitSpAux t [] := by
  induction w generalizing acc with
  | nil => simp [splitSpAux]
  | cons b rest ih =>
    have hb : ¬ b = 32 := fun hc => h (by simp [hc])
    have hr : 32 ∉ rest := fun hc => h (by simp [hc])
    simp only [List.cons_append, splitSpAux, if_neg hb, List.append_eq]
    rw [ih (b :: acc) hr]
    simp

/-- split is a left inverse of join on nonempty word lists whose words
contain no separator byte. -/
theorem splitSp_joinSp (ws : List (List Nat)) (hne : ws ≠ [])
    (h : ∀ w ∈ ws, 32 ∉ w) : splitSp (joinSp ws) = ws := by
  induction ws with
  | nil => exact absurd rfl hne
  | cons w rest ih =>
    rcases rest with _ | ⟨r2, rs⟩
    · show splitSp w = [w]
      have := splitSpAux_no_space w [] (h w (by simp))
      simpa [splitSp] using this
    · have hjoin : joinSp (w :: r2 :: rs) = w ++ 32 :: joinSp (r2 :: rs) := rfl
      rw [hjoin]
      show splitSpAux (w ++ 32 :: joinSp (r2 :: rs)) [] = w :: r2 :: rs
      rw [splitSpAux_append w _ [] (h w (by simp))]
      simp only [List.reverse_nil, List.nil_append]
      have := ih (by simp) (fun x hx => h x (by simp [hx]))
      rw [show splitSp (joinSp (r2 :: rs)) = splitSpAux (joinSp (r2 :: rs)) []
        from rfl] at this
      rw [this]

theorem checksum_word_some (W : Wordlist) (ph : List (List Nat))
    (h : ph.length ≠ 0) : ∃ c, checksum_word W ph = some c ∧ c ∈ ph := by
  simp only [checksum_word, dif_neg h]
  exact ⟨_, rfl, List.get_mem _ _ _⟩

theorem chunks4_length (bs : List Nat) :
    (chunks4 bs).length = bs.length / 4 := by
  generalize hn : bs.length = n
  induction n using Nat.strong_induction_on generalizing bs with
  | _ n IH =>
    match bs, hn with
    | [], hn =>
      simp only [List.length_nil] at hn
      simp [chunks4]
      omega
    | [a], hn =>
      simp only [List.length_cons, List.length_nil] at hn
      simp [chunks4]
      omega
    | [a, b], hn =>
      simp only [List.length_cons, List.length_nil] at hn
      simp [chunks4]
      omega
    | [a, b, c], hn =>
      simp only [List.length_cons, List.length_nil] at hn
      simp [chunks4]
      omega
    | a :: b :: c :: d :: rest, hn =>
      simp only [List.length_cons] at hn
      have := IH rest.length (by omega) rest rfl
      simp only [chunks4, List.length_cons, this]
      omega

theorem chunks4_flatten (bs : List Nat) (h : bs.length % 4 = 0) :
    (chunks4 bs).flatten = bs := by
  generalize hn : bs.length = n
  induction n using Nat.strong_induction_on generalizing bs with
  | _ n IH =>
    match bs, h, hn with
    | [], _, _ => rfl
    | [a], h, _ => simp at h
    | [a, b], h, _ => simp at h
    | [a, b, c], h, _ => simp at h
    | a :: b :: c :: d :: rest, h, hn =>
      simp only [List.length_cons] at hn h
      have hr : rest.length % 4 = 0 := by omega
      have := IH rest.length (by omega) rest hr rfl
      simp [chunks4, this]

/-- Decoding inverts encoding: for chunk values below 2^32, encodeWords
succeeds with canonical wordlist words, and decodeChunks maps those words
back to the concatenated little-endian chunk bytes. -/
theorem decodeChunks_encodeWords (W : Wordlist) (hW : W.words.length = 1626)
    (hLC : lookupConsistent W) :
    ∀ xs, (∀ x ∈ xs, x < 2 ^ 32) →
      ∃ ph, encodeWords W xs = .ok ph ∧
        (∀ w ∈ ph, w ∈ W.words) ∧
        ph.length = 3 * xs.length ∧
        decodeChunks W ph = some (.ok ((xs.map (toLe 4)).flatten)) := by
  intro xs
  induction xs with
  | nil => intro _; exact ⟨[], rfl, by simp, rfl, rfl⟩
  | cons x rest ih =>
    intro hb
    obtain ⟨ph, henc, hmem, hlen, hdec⟩ := ih (fun y hy => hb y (by simp [hy]))
    have hx : x < 2 ^ 32 := hb x (by simp)
    have h1 : x % 1626 < 1626 := by omega
    have h2 : (x / 1626 + x % 1626) % 1626 < 1626 := by omega
    have h3 : (x / 1626 / 1626 + (x / 1626 + x % 1626) % 1626) % 1626 < 1626 := by
      omega
    have h1l : x % 1626 < W.words.length := by omega
    have h2l : (x / 1626 + x % 1626) % 1626 < W.words.length := by omega
    have h3l : (x / 1626 / 1626 + (x / 1626 + x % 1626) % 1626) % 1626 <
        W.words.length := by omega
    have hg1 : W.words.get? (x % 1626) = some (W.words.get ⟨_, h1l⟩) :=
      List.get?_eq_get h1l
    have hg2 : W.words.get? ((x / 1626 + x % 1626) % 1626) =
        some (W.words.get ⟨_, h2l⟩) := List.get?_eq_get h2l
    have hg3 : W.words.get? ((x / 1626 / 1626 + (x / 1626 + x % 1626) % 1626) % 1626) =
        some (W.words.get ⟨_, h3l⟩) := List.get?_eq_get h3l
    refine ⟨W.words.get ⟨_, h1l⟩ :: W.words.get ⟨_, h2l⟩ ::
        W.words.get ⟨_, h3l⟩ :: ph, ?_, ?_, ?_, ?_⟩
    · simp only [encodeWords, hg1, hg2, hg3, henc]
    · intro w hw
      simp only [List.mem_cons] at hw
      rcases hw with h | h | h | h
      · rw [h]; exact List.get_mem _ _ _
      · rw [h]; exact List.get_mem _ _ _
      · rw [h]; exact List.get_mem _ _ _
      · exact hmem w h
    · simp only [List.length_cons, hlen]
      ring
    · have hx32 : x % 2 ^ 32 = x := by omega
      have hcv := chunkVal_encode x hx
      simp only [decodeChunks, hLC _ h1l, hLC _ h2l, hLC _ h3l, hcv]
      have hne : ¬ (x % 1626 ≠ x % 1626) := by simp
      rw [if_neg hne, hdec]
      simp only [List.map_cons, List.flatten_cons, hx32]

theorem wordlistDemo_no_space : ∀ w ∈ wordlistDemo.words, 32 ∉ w := by
  intro w hw
  rw [wordlistDemo_words] at hw
  simp only [wordsDemoList, List.mem_map] at hw
  obtain ⟨i, _, rfl⟩ := hw
  simp [wordDemo]
  omega

theorem chunks_fromLe_lt (bytes : List Nat) (hb : ∀ b ∈ bytes, b < 256) :
    ∀ x ∈ (chunks4 bytes).map fromLe, x < 2 ^ 32 := by
  intro x hx
  simp only [List.mem_map] at hx
  obtain ⟨c, hc, rfl⟩ := hx
  obtain ⟨hcl, hcb⟩ := chunks4_mem bytes c hc
  have := fromLe_lt c (fun b hbm => hb b (hcb b hbm))
  rw [hcl] at this
  calc fromLe c < 256 ^ 4 := this
    _ = 2 ^ 32 := by norm_num

theorem flatten_chunks_bytes (bytes : List Nat) (hlen : bytes.length = 32)
    (hb : ∀ b ∈ bytes, b < 256) :
    ((((chunks4 bytes).map fromLe).map (toLe 4)).flatten) = bytes := by
  rw [List.map_map]
  have hcong : ∀ c ∈ chunks4 bytes, (toLe 4 ∘ fromLe) c = c := by
    intro c hc
    obtain ⟨hcl, hcb⟩ := chunks4_mem bytes c hc
    show toLe 4 (fromLe c) = c
    rw [← hcl]
    exact toLe_fromLe c (fun b hbm => hb b (hcb b hbm))
  rw [List.map_congr_left hcong]
  simp only [List.map_id']
  exact chunks4_flatten bytes (by rw [hlen])

/-- The phrase joined from 24 canonical data words plus their checksum word
is accepted by from_phrase, which returns the decoded 32-byte buffer. -/
theorem from_phrase_joinSp (W : Wordlist) (hWS : ∀ w ∈ W.words, 32 ∉ w)
    (ph : List (List Nat)) (cw buf : List Nat)
    (hpl : ph.length = 24)
    (hmem : ∀ w ∈ ph, w ∈ W.words)
    (hdec : decodeChunks W ph = some (.ok buf))
    (hcweq : checksum_word W ph = some cw)
    (hcwmem : cw ∈ ph)
    (hbl : buf.length = 32) :
    from_phrase W (joinSp (ph ++ [cw])) = some (.ok buf) := by
  have hwm : ∀ w ∈ ph ++ [cw], w ∈ W.words := by
    intro w hw
    simp only [List.mem_append, List.mem_singleton] at hw
    rcases hw with h | h
    · exact hmem w h
    · rw [h]
      exact hmem cw hcwmem
  have hsplit : splitSp (joinSp (ph ++ [cw])) = ph ++ [cw] :=
    splitSp_joinSp _ (by simp) (fun w hw => hWS w (hwm w hw))
  have hlen25 : (ph ++ [cw]).length = 25 := by simp [hpl]
  simp only [from_phrase, hsplit, hlen25]
  rw [if_neg (by omega), if_neg (by omega), List.getLast?_concat,
    List.dropLast_concat]
  simp only [from_phrase_tail, hdec, hcweq]
  rw [if_neg (by simp), if_pos hbl]

/-- C5: for every 32-byte seed s, decoding the encoded phrase succeeds and
yields the canonical reduction of s mod ℓ (the little-endian bytes of
fromLe s % ℓ); in particular the seed itself whenever it is already
reduced.  Stated for every wordlist of 1626 words whose trimmed lookup is
consistent and whose words avoid the separator byte. -/
theorem to_phrase_from_phrase_roundtrip (W : Wordlist)
    (hW : W.words.length = 1626) (hLC : lookupConsistent W)
    (hWS : ∀ w ∈ W.words, 32 ∉ w)
    (s : List Nat) (hs : s.length = 32) (hsb : ∀ b ∈ s, b < 256) :
    to_phrase W s = some (.ok (phraseOf W s)) ∧
    from_phrase W (phraseOf W s) = some (.ok (toLe 32 (fromLe s % lEd))) := by
  set r := fromLe s % lEd with hr
  set bytes := toLe 32 r with hbytes
  have hbl : bytes.length = 32 := by simp [hbytes]
  have hbb : ∀ b ∈ bytes, b < 256 := by rw [hbytes]; exact toLe_lt 32 r
  set xs := (chunks4 bytes).map fromLe with hxs
  have hxb : ∀ x ∈ xs, x < 2 ^ 32 := by
    rw [hxs]
    exact chunks_fromLe_lt bytes hbb
  obtain ⟨ph, henc, hmem, hlen, hdec⟩ := decodeChunks_encodeWords W hW hLC xs hxb
  have hxl : xs.length = 8 := by
    rw [hxs]
    simp [chunks4_length, hbl]
  have hpl : ph.length = 24 := by rw [hlen, hxl]
  have hbuf : (xs.map (toLe 4)).flatten = bytes := by
    rw [hxs]
    exact flatten_chunks_bytes bytes hbl hbb
  rw [hbuf] at hdec
  obtain ⟨cw, hcweq, hcwmem⟩ := checksum_word_some W ph (by omega)
  have hto : to_phrase W s = some (.ok (joinSp (ph ++ [cw]))) := by
    simp only [to_phrase, ← hr, ← hbytes, ← hxs, henc, hcweq]
  have hphr : phraseOf W s = joinSp (ph ++ [cw]) := by
    simp only [phraseOf, hto]
  rw [hphr]
  refine ⟨hto, ?_⟩
  have hfp := from_phrase_joinSp W hWS ph cw bytes hpl hmem hdec hcweq hcwmem hbl
  rw [hfp, hbytes, hr]

/-- C5 witness: the zero seed round-trips through the concrete wordlist. -/
theorem to_phrase_from_phrase_roundtrip_witness :
    to_phrase wordlistDemo (List.replicate 32 0) =
      some (.ok (phraseOf wordlistDemo (List.replicate 32 0))) ∧
    from_phrase wordlistDemo (phraseOf wordlistDemo (List.replicate 32 0)) =
      some (.ok (toLe 32 (fromLe (List.replicate 32 0) % lEd))) :=
  to_phrase_from_phrase_roundtrip wordlistDemo wordlistDemo_length
    lookupConsistent_wordlistDemo wordlistDemo_no_space _ (by simp)
    (by intro b hb; simp at hb; omega)

theorem checksum_word_mem (W : Wordlist) (l : List (List Nat)) (c : List Nat)
    (h : checksum_word W l = some c) : c ∈ l := by
  simp only [checksum_word] at h
  split at h
  · simp at h
  · simp only [Option.some_inj] at h
    rw [← h]
    exact List.get_mem _ _ _

theorem mem_canon (W : Wordlist) (hLC : lookupConsistent W) (u : List Nat)
    (hu : u ∈ W.words) (j : Nat)
    (hj : W.getIndexTrimmed (W.toTrimmed u) = some j) :
    ∃ h : j < W.words.length, W.words.get ⟨j, h⟩ = u := by
  obtain ⟨⟨m, hm⟩, hget⟩ := List.mem_iff_get.mp hu
  have hc := hLC m hm
  rw [hget, hj] at hc
  simp only [Option.some_inj] at hc
  subst hc
  exact ⟨hm, hget⟩

theorem trimmed_eq_of (W : Wordlist) (hLC : lookupConsistent W)
    (u v : List Nat) (hu : u ∈ W.words) (hv : v ∈ W.words)
    (h : W.toTrimmed u = W.toTrimmed v) : u = v := by
  obtain ⟨⟨i, hi⟩, hgu⟩ := List.mem_iff_get.mp hu
  obtain ⟨⟨j, hj⟩, hgv⟩ := List.mem_iff_get.mp hv
  have h1 := hLC i hi
  have h2 := hLC j hj
  rw [hgu] at h1
  rw [hgv] at h2
  rw [h] at h1
  rw [h1] at h2
  simp only [Option.some_inj] at h2
  cases h2
  rw [← hgu, ← hgv]

/-- Successful from_phrase runs determine the checksum word, the chunk
decode of the leading words, checksum agreement, and the 32-byte length. -/
theorem from_phrase_ok_inv (W : Wordlist) (p s : List Nat)
    (h : from_phrase W p = some (.ok s)) :
    ∃ cW, (splitSp p).getLast? = some cW ∧
      decodeChunks W (splitSp p).dropLast = some (.ok s) ∧
      ∃ expected, checksum_word W (splitSp p).dropLast = some expected ∧
        W.toTrimmed expected = W.toTrimmed cW ∧ s.length = 32 := by
  simp only [from_phrase] at h
  split at h
  · simp at h
  split at h
  · simp at h
  split at h
  · simp at h
  next cW hlast =>
    simp only [from_phrase_tail] at h
    split at h
    · simp at h
    · simp at h
    next buf hdec =>
      split at h
      · simp at h
      next expected hcw =>
        split at h
        · simp at h
        next htr =>
          split at h
          next hlen32 =>
            simp only [Option.some_inj, Except.ok.injEq] at h
            subst h
            exact ⟨cW, hlast, hdec, expected, hcw, not_ne_iff.mp htr, hlen32⟩
          · simp at h

/-- Inversion of chunk decoding: when every chunk value stays below 2^32
and the words are canonical wordlist entries, the buffer is the
concatenated chunk bytes and re-encoding the chunk values reproduces the
words exactly. -/
theorem decodeChunks_inv (W : Wordlist) (hW : W.words.length = 1626)
    (hLC : lookupConsistent W) (data : List (List Nat)) (buf : List Nat)
    (hdec : decodeChunks W data = some (.ok buf))
    (hmemd : ∀ w ∈ data, w ∈ W.words)
    (hbound : ∀ x ∈ chunkVals W data, x < 2 ^ 32) :
    buf = ((chunkVals W data).map (toLe 4)).flatten ∧
    encodeWords W (chunkVals W data) = .ok data := by
  generalize hn : data.length = n
  induction n using Nat.strong_induction_on generalizing data buf with
  | _ n IH =>
    match data, hdec, hmemd, hbound, hn with
    | [], hdec, _, _, _ =>
      simp only [decodeChunks, Option.some_inj] at hdec
      cases hdec
      exact ⟨rfl, rfl⟩
    | [c1], hdec, _, _, _ => simp [decodeChunks] at hdec
    | [c1, c2], hdec, _, _, _ => simp [decodeChunks] at hdec
    | c1 :: c2 :: c3 :: rest, hdec, hmemd, hbound, hn =>
      simp only [List.length_cons] at hn
      simp only [decodeChunks] at hdec
      split at hdec
      · rename_i w1 w2 w3 hl1 hl2 hl3
        have hw1 : w1 < 1626 := by
          have := getIndexTrimmed_lt W _ _ hl1
          omega
        have hw2 : w2 < 1626 := by
          have := getIndexTrimmed_lt W _ _ hl2
          omega
        have hw3 : w3 < 1626 := by
          have := getIndexTrimmed_lt W _ _ hl3
          omega
        rw [if_neg (by simp [chunkVal_mod w1 w2 w3 hw1])] at hdec
        split at hdec
        · simp at hdec
        · simp at hdec
        · rename_i buf2 hrest
          simp only [Option.some_inj, Except.ok.injEq] at hdec
          have hcv : chunkVals W (c1 :: c2 :: c3 :: rest) =
              chunkVal w1 w2 w3 :: chunkVals W rest := by
            simp only [chunkVals, hl1, hl2, hl3]
          rw [hcv] at hbound
          have hxlt : chunkVal w1 w2 w3 < 2 ^ 32 := hbound _ (by simp)
          have hx32 : chunkVal w1 w2 w3 % 2 ^ 32 = chunkVal w1 w2 w3 := by
            omega
          obtain ⟨hbuf2, henc2⟩ := IH rest.length (by omega) rest buf2 hrest
            (fun w hw => hmemd w (by simp [hw]))
            (fun x hx => hbound x (by simp [hx])) rfl
          obtain ⟨hd1, hd2, hd3⟩ := chunk_digits w1 w2 w3 hw1 hw2 hw3
          obtain ⟨hm1, hg1⟩ := mem_canon W hLC c1 (hmemd c1 (by simp)) w1 hl1
          obtain ⟨hm2, hg2⟩ := mem_canon W hLC c2 (hmemd c2 (by simp)) w2 hl2
          obtain ⟨hm3, hg3⟩ := mem_canon W hLC c3 (hmemd c3 (by simp)) w3 hl3
          constructor
          · rw [hcv]
            simp only [List.map_cons, List.flatten_cons]
            rw [← hdec, hbuf2, hx32]
          · rw [hcv]
            simp only [encodeWords]
            rw [hd3, hd2, hd1]
            rw [List.get?_eq_get hm1, List.get?_eq_get hm2,
              List.get?_eq_get hm3, hg1, hg2, hg3, henc2]
      · simp at hdec

/-- C4 (amended): re-encoding the decoded seed reproduces a well-formed
25-word phrase exactly, provided the phrase's words are canonical wordlist
entries, every chunk value is below 2^32 (no u32 truncation), and the
decoded seed is already reduced mod ℓ.  Phrases with an unreduced seed or
an overflowing chunk re-encode differently. -/
theorem from_phrase_to_phrase_roundtrip (W : Wordlist)
    (hW : W.words.length = 1626) (hLC : lookupConsistent W)
    (p s : List Nat)
    (hok : from_phrase W p = some (.ok s))
    (hcanon : ∀ w ∈ splitSp p, w ∈ W.words)
    (hbound : ∀ x ∈ chunkVals W ((splitSp p).dropLast), x < 2 ^ 32)
    (hred : fromLe s < lEd) :
    to_phrase W s = some (.ok p) := by
  obtain ⟨cW, hlast, hdec, expected, hcw, htr, hs32⟩ := from_phrase_ok_inv W p s hok
  have hmemd : ∀ w ∈ (splitSp p).dropLast, w ∈ W.words :=
    fun w hw => hcanon w (List.mem_of_mem_dropLast hw)
  obtain ⟨hbufeq, henc⟩ := decodeChunks_inv W hW hLC _ s hdec hmemd hbound
  have hall4 : ∀ c ∈ (chunkVals W ((splitSp p).dropLast)).map (toLe 4),
      c.length = 4 := by
    intro c hc
    simp only [List.mem_map] at hc
    obtain ⟨x, _, rfl⟩ := hc
    simp
  have hsb : ∀ b ∈ s, b < 256 := by
    rw [hbufeq]
    intro b hb
    rw [List.mem_flatten] at hb
    obtain ⟨c, hc, hbc⟩ := hb
    simp only [List.mem_map] at hc
    obtain ⟨x, _, rfl⟩ := hc
    exact toLe_lt _ _ b hbc
  have hr0 : fromLe s % lEd = fromLe s := Nat.mod_eq_of_lt hred
  have hbytes : toLe 32 (fromLe s % lEd) = s := by
    rw [hr0, ← hs32]
    exact toLe_fromLe s hsb
  have hchunks : chunks4 s = (chunkVals W ((splitSp p).dropLast)).map (toLe 4) := by
    rw [hbufeq]
    exact chunks4_of_flatten _ hall4
  have hxs : (chunks4 s).map fromLe = chunkVals W ((splitSp p).dropLast) := by
    rw [hchunks, List.map_map]
    have hcong : ∀ x ∈ chunkVals W ((splitSp p).dropLast),
        (fromLe ∘ toLe 4) x = x := by
      intro x hx
      show fromLe (toLe 4 x) = x
      rw [fromLe_toLe4]
      exact Nat.mod_eq_of_lt (hbound x hx)
    rw [List.map_congr_left hcong]
    simp only [List.map_id']
  have hexp_words : expected ∈ W.words :=
    hmemd expected (checksum_word_mem W _ _ hcw)
  have hsplit_eq : (splitSp p).dropLast ++ [cW] = splitSp p :=
    List.dropLast_append_getLast? cW (by rw [hlast]; rfl)
  have hcW_words : cW ∈ W.words := by
    apply hcanon
    rw [← hsplit_eq]
    simp
  have hcwEq : expected = cW := trimmed_eq_of W hLC expected cW hexp_words
    hcW_words htr
  simp only [to_phrase, hbytes, hxs, henc, hcw]
  rw [hcwEq, hsplit_eq, joinSp_splitSp]

/-- C4 (counterexample): phraseC4 is a well-formed 25-word phrase of
canonical wordlist words with a consistent checksum word, and from_phrase
accepts it; but its decoded seed is not reduced mod ℓ, and re-encoding the
seed does not reproduce the phrase.  This refutes the exact round trip as
stated. -/
theorem from_phrase_to_phrase_counterexample :
    from_phrase wordlistDemo phraseC4 = some (.ok seedC4) ∧
    to_phrase wordlistDemo seedC4 ≠ some (.ok phraseC4) := by
  have hv256 : 269675352 * 2 ^ 224 < 256 ^ 32 := by norm_num
  have hsl : seedC4.length = 32 := by simp [seedC4]
  have hsb : ∀ b ∈ seedC4, b < 256 := by
    rw [seedC4]
    exact toLe_lt _ _
  have hxb := chunks_fromLe_lt seedC4 hsb
  obtain ⟨ph, henc, hmem, hlen, hdec⟩ := decodeChunks_encodeWords wordlistDemo
    wordlistDemo_length lookupConsistent_wordlistDemo _ hxb
  have hxl : ((chunks4 seedC4).map fromLe).length = 8 := by
    simp [chunks4_length, hsl]
  have hpl : ph.length = 24 := by rw [hlen, hxl]
  have hbuf : (((chunks4 seedC4).map fromLe).map (toLe 4)).flatten = seedC4 :=
    flatten_chunks_bytes seedC4 hsl hsb
  rw [hbuf] at hdec
  obtain ⟨cw, hcweq, hcwmem⟩ := checksum_word_some wordlistDemo ph (by omega)
  have hph : phraseC4 = joinSp (ph ++ [cw]) := by
    simp only [phraseC4, henc, hcweq, Option.getD_some]
  constructor
  · rw [hph]
    exact from_phrase_joinSp wordlistDemo wordlistDemo_no_space ph cw seedC4
      hpl hmem hdec hcweq hcwmem hsl
  · -- the re-encoded seed is reduced mod ℓ first, changing every chunk
    intro hcontra
    have hfsv : fromLe seedC4 = 269675352 * 2 ^ 224 :=
      fromLe_toLe 32 _ hv256
    have hsl2 : (toLe 32 (269675352 * 2 ^ 224 % lEd)).length = 32 := by simp
    have hsb2 : ∀ b ∈ toLe 32 (269675352 * 2 ^ 224 % lEd), b < 256 :=
      toLe_lt _ _
    have hxb2 := chunks_fromLe_lt _ hsb2
    obtain ⟨ph2, henc2, hmem2, hlen2, hdec2⟩ := decodeChunks_encodeWords
      wordlistDemo wordlistDemo_length lookupConsistent_wordlistDemo _ hxb2
    have hbuf2 : (((chunks4 (toLe 32 (269675352 * 2 ^ 224 % lEd))).map
        fromLe).map (toLe 4)).flatten = toLe 32 (269675352 * 2 ^ 224 % lEd) :=
      flatten_chunks_bytes _ hsl2 hsb2
    rw [hbuf2] at hdec2
    have hxl2 : ((chunks4 (toLe 32 (269675352 * 2 ^ 224 % lEd))).map
        fromLe).length = 8 := by
      simp [chunks4_length]
    have hpl2 : ph2.length = 24 := by rw [hlen2, hxl2]
    obtain ⟨cw2, hcweq2, hcwmem2⟩ := checksum_word_some wordlistDemo ph2
      (by omega)
    have hto : to_phrase wordlistDemo seedC4 =
        some (.ok (joinSp (ph2 ++ [cw2]))) := by
      simp only [to_phrase, hfsv, henc2, hcweq2]
    rw [hto] at hcontra
    simp only [Option.some_inj, Except.ok.injEq] at hcontra
    rw [hph] at hcontra
    have hwm2 : ∀ w ∈ ph2 ++ [cw2], w ∈ wordlistDemo.words := by
      intro w hw
      simp only [List.mem_append, List.mem_singleton] at hw
      rcases hw with h | h
      · exact hmem2 w h
      · rw [h]
        exact hmem2 cw2 hcwmem2
    have hwm : ∀ w ∈ ph ++ [cw], w ∈ wordlistDemo.words := by
      intro w hw
      simp only [List.mem_append, List.mem_singleton] at hw
      rcases hw with h | h
      · exact hmem w h
      · rw [h]
        exact hmem cw hcwmem
    have hsp2 : splitSp (joinSp (ph2 ++ [cw2])) = ph2 ++ [cw2] :=
      splitSp_joinSp _ (by simp) (fun w hw => wordlistDemo_no_space w (hwm2 w hw))
    have hsp : splitSp (joinSp (ph ++ [cw])) = ph ++ [cw] :=
      splitSp_joinSp _ (by simp) (fun w hw => wordlistDemo_no_space w (hwm w hw))
    have hlists : ph2 ++ [cw2] = ph ++ [cw] := by
      rw [← hsp2, ← hsp, hcontra]
    have hph_eq : ph2 = ph := by
      have := congrArg List.dropLast hlists
      simpa [List.dropLast_concat] using this
    rw [hph_eq, hdec] at hdec2
    simp only [Option.some_inj, Except.ok.injEq] at hdec2
    have hveq : 269675352 * 2 ^ 224 % lEd = 269675352 * 2 ^ 224 := by
      have h1 := congrArg fromLe hdec2
      have hr256 : 269675352 * 2 ^ 224 % lEd < 256 ^ 32 := by
        have : 269675352 * 2 ^ 224 % lEd ≤ 269675352 * 2 ^ 224 :=
          Nat.mod_le _ _
        omega
      rw [fromLe_toLe 32 _ hr256, seedC4, fromLe_toLe 32 _ hv256] at h1
      exact h1.symm
    have hlt : 269675352 * 2 ^ 224 % lEd < lEd :=
      Nat.mod_lt _ (by norm_num [lEd])
    have hle : lEd ≤ 269675352 * 2 ^ 224 := by norm_num [lEd]
    omega

set_option maxRecDepth 8000 in
theorem checksum_word_replicate (W : Wordlist) (n : Nat) (hn : n ≠ 0)
    (w : List Nat) :
    checksum_word W (List.replicate n w) = some w := by
  have hl : (List.replicate n w).length = n := List.length_replicate n w
  simp only [checksum_word]
  rw [dif_neg (by rw [hl]; exact hn)]
  congr 1
  exact List.eq_of_mem_replicate (List.get_mem _ _ _)

theorem wordDemo_mem (i : Nat) (h : i < 1626) :
    wordDemo i ∈ wordlistDemo.words := by
  rw [wordlistDemo_words, wordsDemoList]
  exact List.mem_map.mpr ⟨i, List.mem_range.mpr h, rfl⟩

set_option maxRecDepth 8000 in
/-- C4 witness: the round trip of the amended claim at the all-zero seed and
its 25-word phrase (24 data words plus checksum word, all equal to the first
wordlist entry). -/
theorem from_phrase_to_phrase_roundtrip_witness :
    from_phrase wordlistDemo (joinSp (List.replicate 25 [119, 65, 65])) =
      some (.ok (List.replicate 32 0)) ∧
    to_phrase wordlistDemo (List.replicate 32 0) =
      some (.ok (joinSp (List.replicate 25 [119, 65, 65]))) := by
  have hw0 : ([119, 65, 65] : List Nat) ∈ wordlistDemo.words := by
    have hwd : wordDemo 0 = [119, 65, 65] := by norm_num [wordDemo]
    rw [← hwd]
    exact wordDemo_mem 0 (by norm_num)
  have h25 : List.replicate 25 ([119, 65, 65] : List Nat) =
      List.replicate 24 [119, 65, 65] ++ [[119, 65, 65]] := by decide
  have hmem : ∀ w ∈ List.replicate 24 ([119, 65, 65] : List Nat),
      w ∈ wordlistDemo.words := by
    intro w hw
    rw [List.eq_of_mem_replicate hw]
    exact hw0
  have hdec : decodeChunks wordlistDemo (List.replicate 24 [119, 65, 65]) =
      some (.ok (List.replicate 32 0)) := by decide
  have hcw : checksum_word wordlistDemo (List.replicate 24 [119, 65, 65]) =
      some [119, 65, 65] :=
    checksum_word_replicate wordlistDemo 24 (by norm_num) _
  have hok : from_phrase wordlistDemo
      (joinSp (List.replicate 25 [119, 65, 65])) =
      some (.ok (List.replicate 32 0)) := by
    rw [h25]
    exact from_phrase_joinSp wordlistDemo wordlistDemo_no_space _ _ _
      (by simp) hmem hdec hcw
      (List.mem_replicate.mpr ⟨by norm_num, rfl⟩) (by simp)
  have hsp : splitSp (joinSp (List.replicate 25 ([119, 65, 65] : List Nat))) =
      List.replicate 25 [119, 65, 65] :=
    splitSp_joinSp _ (by simp) (fun w hw => by
      rw [List.eq_of_mem_replicate hw]; decide)
  have hdl : (List.replicate 25 ([119, 65, 65] : List Nat)).dropLast =
      List.replicate 24 [119, 65, 65] := by
    rw [h25, List.dropLast_concat]
  refine ⟨hok, ?_⟩
  exact from_phrase_to_phrase_roundtrip wordlistDemo wordlistDemo_length
    lookupConsistent_wordlistDemo _ _ hok
    (fun w hw => by
      rw [hsp] at hw
      rw [List.eq_of_mem_replicate hw]
      exact hw0)
    (by rw [hsp, hdl]; decide)
    (by decide)

end Wagyu
